import Mathlib

/-!
Shallow embedding of an in-memory LRU-cache repository consisting of two
source files: a node-based variant (`Deque`, `Cache`, `MultiLevelCache`
from `main.py`) and a slab-based variant (`Slab.LRUCache` from `slab.py`).

Conventions of the embedding:
* Python exceptions (`AttributeError`, `IndexError`, `KeyError`,
  explicit `raise`) are modelled by `Option`: an operation returns `none`
  exactly when the Python code raises.
* Python values are dynamically typed and may be `None`; a stored value is
  modelled as `Option α`, with `none` standing for Python's `None`.
* Python `dict`s are modelled as insertion-ordered association lists with
  unique keys (`dictLookup` / `dictInsert` / `dictDelete`).
* Heap-allocated `DequeNode` objects of `main.py` live in an arena (a
  grow-only list); an object reference is the node's arena address.
-/

section Dict

variable {κ β : Type} [DecidableEq κ]

/-- `d[k]` lookup in an insertion-ordered Python dict. -/
def dictLookup : List (κ × β) → κ → Option β
  | [], _ => none
  | (k', b) :: t, k => if k' = k then some b else dictLookup t k

/-- `d[k] = b` on a Python dict: update in place, or append a new key. -/
def dictInsert : List (κ × β) → κ → β → List (κ × β)
  | [], k, b => [(k, b)]
  | (k', b') :: t, k, b =>
    if k' = k then (k, b) :: t else (k', b') :: dictInsert t k b

/-- `del d[k]` on a Python dict (call sites guarantee the key is present). -/
def dictDelete : List (κ × β) → κ → List (κ × β)
  | [], _ => []
  | (k', b') :: t, k => if k' = k then t else (k', b') :: dictDelete t k

end Dict

/-- Operations shared by both cache variants: `put(key, value)` and
`get(key)`.  A value is `Option α`, `none` being Python's `None`. -/
inductive Op (κ α : Type) where
  | put (key : κ) (value : Option α)
  | get (key : κ)

/-- The value most recently `put` for a key by a list of operations, if any
(the abstract reading of the spec's "value most recently passed to put"). -/
def lastPut {κ α : Type} [DecidableEq κ] (ops : List (Op κ α)) (k : κ) :
    Option (Option α) :=
  ops.foldl
    (fun acc op =>
      match op with
      | .put k' v => if k' = k then some v else acc
      | .get _ => acc)
    none

/-- `o` is `none` or an index below `n`. -/
def OptLt (o : Option Nat) (n : Nat) : Prop :=
  match o with
  | none => True
  | some j => j < n

instance (o : Option Nat) (n : Nat) : Decidable (OptLt o n) :=
  match o with
  | none => .isTrue trivial
  | some j => Nat.decLt j n

namespace Slab

/-- `CacheEntry = namedtuple("CacheEntry", ("value", "prev", "nxt"))` of
`slab.py`; `prev`/`nxt` are slot indices or Python `None`. -/
structure CacheEntry (α : Type) where
  value : Option α
  prev : Option Nat
  nxt : Option Nat
deriving DecidableEq, Repr

/-- Read `self.slab[i]` and immediately use the entry's attributes: fails
(Python `IndexError` / `AttributeError` on `None`) when the index is out of
range or the cell is empty.  Every read site of `slab.py` dereferences the
entry it reads, so folding the attribute access into the read is faithful. -/
def sRead {α : Type} (slab : List (Option (CacheEntry α))) (i : Nat) :
    Option (CacheEntry α) :=
  (slab.get? i).bind id

/-- Write `self.slab[i] = e`; Python raises `IndexError` out of range. -/
def sWrite {α : Type} (slab : List (Option (CacheEntry α))) (i : Nat)
    (e : CacheEntry α) : Option (List (Option (CacheEntry α))) :=
  if i < slab.length then some (slab.set i (some e)) else none

/-- `class LRUCache` of `slab.py`: a fixed-size slab of cells, a
`key -> index` dict, `head`/`tail` slot indices and a size counter. -/
structure LRUCache (κ α : Type) where
  slab : List (Option (CacheEntry α))
  capacity : Int
  key_to_index : List (κ × Nat)
  head : Option Nat
  tail : Option Nat
  size : Nat
deriving DecidableEq, Repr

/-- `LRUCache.__init__(capacity)`: `self.slab = [None] * capacity` (empty
for `capacity <= 0`); no validation of the capacity is performed. -/
def LRUCache.init (κ α : Type) (capacity : Int) : LRUCache κ α :=
  ⟨List.replicate capacity.toNat none, capacity, [], none, none, 0⟩

variable {κ α : Type} [DecidableEq κ]

/-- Step 1a of `_promote_to_mru`: `if prev is not None`, rewire the
predecessor's `nxt` to the promoted entry's old `nxt`. -/
def fix_prev (slab : List (Option (CacheEntry α))) (prev nxt : Option Nat) :
    Option (List (Option (CacheEntry α))) :=
  match prev with
  | none => some slab
  | some p => do
      let old_prev ← sRead slab p
      sWrite slab p ⟨old_prev.value, old_prev.prev, nxt⟩

/-- Step 1b of `_promote_to_mru`: `if nxt is not None`, rewire the
successor's `prev` to the promoted entry's old `prev`. -/
def fix_nxt (slab : List (Option (CacheEntry α))) (prev nxt : Option Nat) :
    Option (List (Option (CacheEntry α))) :=
  match nxt with
  | none => some slab
  | some nx => do
      let old_nxt ← sRead slab nx
      sWrite slab nx ⟨old_nxt.value, prev, old_nxt.nxt⟩

/-- Step 2 of `_promote_to_mru`: `if index != self.tail`, point the old
tail at the promoted entry and move the `tail` pointer. -/
def fix_tail (c : LRUCache κ α) (slab3 : List (Option (CacheEntry α)))
    (index : Nat) : Option (LRUCache κ α) :=
  if some index ≠ c.tail then do
    let t ← c.tail
    let prev_tail ← sRead slab3 t
    let slab4 ← sWrite slab3 t ⟨prev_tail.value, prev_tail.prev, some index⟩
    some ({ c with slab := slab4, tail := some index } : LRUCache κ α)
  else
    some ({ c with slab := slab3 } : LRUCache κ α)

/-- `LRUCache._promote_to_mru(index)` of `slab.py`, line for line (the
numbered steps are hoisted into the helpers above). -/
def LRUCache.promote_to_mru (c : LRUCache κ α) (index : Nat) :
    Option (LRUCache κ α) := do
  let cache_entry ← sRead c.slab index
  -- new entry: "We already know it will be the new tail"
  let new_cache_entry : CacheEntry α := ⟨cache_entry.value, c.tail, none⟩
  let slab1 ← sWrite c.slab index new_cache_entry
  let slab2 ← fix_prev slab1 cache_entry.prev cache_entry.nxt
  let slab3 ← fix_nxt slab2 cache_entry.prev cache_entry.nxt
  let c1 ← fix_tail c slab3 index
  let head' := if some index = c.head then cache_entry.nxt else c.head
  some { c1 with head := head' }

/-- `LRUCache.get(key)` of `slab.py`: returns the bare stored value on a
hit (after promoting the slot to MRU) and Python `None` on a miss. -/
def LRUCache.get (c : LRUCache κ α) (key : κ) :
    Option (Option α × LRUCache κ α) :=
  match dictLookup c.key_to_index key with
  | none => some (none, c)
  | some index => do
      let c' ← c.promote_to_mru index
      let e ← sRead c'.slab index
      some (e.value, c')

/-- `if self.tail is not None`, make the previous tail point at the
newly inserted index (the non-full branch of `put`). -/
def link_old_tail (slab1 : List (Option (CacheEntry α))) (tl : Option Nat)
    (index : Nat) : Option (List (Option (CacheEntry α))) :=
  match tl with
  | none => some slab1
  | some t => do
      let prev_tail ← sRead slab1 t
      sWrite slab1 t ⟨prev_tail.value, prev_tail.prev, some index⟩

/-- `LRUCache.put(key, value)` of `slab.py`.  In the eviction branch the
source executes `self.tail.nxt = index` where `self.tail` is an integer
slot index (or `None`), which raises `AttributeError` unconditionally;
the branch therefore always fails after its slab writes. -/
def LRUCache.put (c : LRUCache κ α) (key : κ) (value : Option α) :
    Option (LRUCache κ α) :=
  let prev := c.tail
  let new_cache_entry : CacheEntry α := ⟨value, prev, none⟩
  match dictLookup c.key_to_index key with
  | none =>
    if (c.size : Int) = c.capacity then do
      -- Case 1: evict LRU
      let index ← c.head
      let lru_cache_entry ← sRead c.slab index
      let nI ← lru_cache_entry.nxt
      let new_head_entry ← sRead c.slab nI
      let slab1 ← sWrite c.slab nI ⟨new_head_entry.value, none, new_head_entry.nxt⟩
      let _slab2 ← sWrite slab1 index new_cache_entry
      -- `self.tail.nxt = index`: AttributeError on an int / None
      (none : Option (LRUCache κ α))
    else do
      -- Case 2: slab is not full yet
      let index := c.size
      let kti := dictInsert c.key_to_index key index
      let slab1 ← sWrite c.slab index new_cache_entry
      let head' := if c.head = none then some index else c.head
      let slab2 ← link_old_tail slab1 c.tail index
      some ⟨slab2, c.capacity, kti, head', some index, c.size + 1⟩
  | some index => do
      -- Edit case: upgrade to MRU, then overwrite with the new value
      let c1 ← c.promote_to_mru index
      let slab2 ← sWrite c1.slab index new_cache_entry
      some { c1 with slab := slab2 }

/-- Inversion of `key_to_index` as built by `debug_str` (iteration in
insertion order, later pairs overwrite earlier ones). -/
def LRUCache.index_to_key (c : LRUCache κ α) (i : Nat) : Option κ :=
  c.key_to_index.foldl (fun acc p => if p.2 = i then some p.1 else acc) none

/-- The `while pointer is not None` walk of `debug_str`, with fuel; `none`
models a raising or non-terminating walk. -/
def debugWalk (c : LRUCache κ α) : Nat → Option Nat → Option (List (κ × Option α))
  | _, none => some []
  | 0, some _ => none
  | fuel + 1, some i => do
      let e ← sRead c.slab i
      let k ← c.index_to_key i
      let rest ← debugWalk c fuel e.nxt
      some ((k, e.value) :: rest)

/-- `LRUCache.debug_str()` as the LRU-to-MRU list of `key:value` pairs. -/
def LRUCache.debug_str (c : LRUCache κ α) : Option (List (κ × Option α)) :=
  debugWalk c (c.slab.length + 1) c.head

/-- Forward walk over slot indices from a starting pointer via `nxt`. -/
def idxWalkNxt (c : LRUCache κ α) : Nat → Option Nat → Option (List Nat)
  | _, none => some []
  | 0, some _ => none
  | fuel + 1, some i => do
      let e ← sRead c.slab i
      let rest ← idxWalkNxt c fuel e.nxt
      some (i :: rest)

/-- Backward walk over slot indices from a starting pointer via `prev`. -/
def idxWalkPrev (c : LRUCache κ α) : Nat → Option Nat → Option (List Nat)
  | _, none => some []
  | 0, some _ => none
  | fuel + 1, some i => do
      let e ← sRead c.slab i
      let rest ← idxWalkPrev c fuel e.prev
      some (i :: rest)

/-- The value stored in cell `i` of a slab, if the cell is occupied. -/
def valAt (slab : List (Option (CacheEntry α))) (i : Nat) : Option (Option α) :=
  (sRead slab i).map CacheEntry.value

/-- The value the slab cache currently holds for key `k`:
`slab[key_to_index[k]].value`. -/
def storedVal (c : LRUCache κ α) (k : κ) : Option (Option α) :=
  (dictLookup c.key_to_index k).bind fun i => valAt c.slab i

/-- Cell `i` is occupied and its links point below `n` (or are `none`). -/
def cellOk (slab : List (Option (CacheEntry α))) (n i : Nat) : Prop :=
  match sRead slab i with
  | none => False
  | some e => OptLt e.prev n ∧ OptLt e.nxt n

instance (slab : List (Option (CacheEntry α))) (n i : Nat) :
    Decidable (cellOk slab n i) :=
  match h : sRead slab i with
  | none => .isFalse (by simp [cellOk, h])
  | some e => decidable_of_iff (OptLt e.prev n ∧ OptLt e.nxt n) (by simp [cellOk, h])

/-- The tail pointer is `none` exactly on the empty cache, otherwise an
occupied index. -/
def tailOk (c : LRUCache κ α) : Prop :=
  match c.tail with
  | none => c.size = 0
  | some t => t < c.size

instance (c : LRUCache κ α) : Decidable (tailOk c) :=
  match h : c.tail with
  | none => decidable_of_iff (c.size = 0) (by simp [tailOk, h])
  | some t => decidable_of_iff (t < c.size) (by simp [tailOk, h])

/-- Invariant of reachable slab-cache states (reachable, that is, through
operations that did not raise): the size matches the number of mapped
keys and stays within the slab, keys map injectively to occupied cells
`0 .. size-1` whose links stay below `size`, and the tail pointer is
sound.  (Nothing is claimed about the chain shape itself: promotion of
the tail entry genuinely corrupts it, see the C1/C5/C6 exhibits.) -/
def SInv (c : LRUCache κ α) : Prop :=
  c.size = c.key_to_index.length
    ∧ (c.key_to_index.map Prod.fst).Nodup
    ∧ (c.key_to_index.map Prod.snd).Nodup
    ∧ (∀ p ∈ c.key_to_index, p.2 < c.size)
    ∧ c.size ≤ c.slab.length
    ∧ (∀ i, i < c.size → cellOk c.slab c.size i)
    ∧ tailOk c

instance (c : LRUCache κ α) : Decidable (SInv c) := by
  unfold SInv; infer_instance

/-- One operation against the slab cache (the result of a `get` is
discarded, its state change kept). -/
def LRUCache.step (c : LRUCache κ α) : Op κ α → Option (LRUCache κ α)
  | .put k v => c.put k v
  | .get k => (c.get k).map Prod.snd

/-- Run a list of operations; `none` as soon as one raises. -/
def LRUCache.run (c : LRUCache κ α) : List (Op κ α) → Option (LRUCache κ α)
  | [] => some c
  | op :: t => (c.step op).bind fun c' => c'.run t

/-- Construct an `LRUCache` of the given capacity and run operations. -/
def LRUCache.exec (κ α : Type) [DecidableEq κ] (cap : Int)
    (ops : List (Op κ α)) : Option (LRUCache κ α) :=
  (LRUCache.init κ α cap).run ops

end Slab

/-- `class DataResult` of `main.py`: the `(found, data)` result returned
by the node-based `Cache.get`. -/
structure DataResult (α : Type) where
  found : Bool
  data : Option α
deriving DecidableEq, Repr

/-- `class DequeNode` of `main.py`.  `val` holds the cache key ("while
this is called value, this is actually the key"); `prev`/`nxt` are object
references, modelled as arena addresses. -/
structure DequeNode (κ : Type) where
  val : κ
  prev : Option Nat
  nxt : Option Nat
deriving DecidableEq, Repr

/-- `class Deque` of `main.py`.  `nodes` is the arena of every
`DequeNode` ever allocated (a reference = an index into it; the arena
only grows, mirroring Python object identity). -/
structure Deque (κ : Type) where
  nodes : List (DequeNode κ)
  head : Option Nat
  tail : Option Nat
deriving DecidableEq, Repr

/-- `Deque.__init__`. -/
def Deque.init (κ : Type) : Deque κ := ⟨[], none, none⟩

/-- `Deque._possibly_reset_pointers`. -/
def Deque.possibly_reset_pointers {κ : Type} (d : Deque κ) : Deque κ :=
  if d.head.isNone || d.tail.isNone then { d with head := none, tail := none }
  else d

/-- `Deque.append(val)`: allocate a node, link it after the tail, return
the new node's reference.  The `else` branch dereferences `self.tail`,
which raises if `tail` is `None` while `head` is not (unreachable in
well-formed states). -/
def Deque.append {κ : Type} (d : Deque κ) (v : κ) : Option (Nat × Deque κ) :=
  let a := d.nodes.length
  let nodes0 := d.nodes ++ [⟨v, none, none⟩]
  if d.head.isNone && d.tail.isNone then
    some (a, ⟨nodes0, some a, some a⟩)
  else
    match d.tail with
    | none => none
    | some t =>
      match nodes0.get? t with
      | none => none
      | some tn =>
        -- self.tail.nxt = node; node.prev = self.tail; self.tail = self.tail.nxt
        let nodes1 := nodes0.set t { tn with nxt := some a }
        let nodes2 := nodes1.set a ⟨v, some t, none⟩
        some (a, ⟨nodes2, d.head, some a⟩)

/-- `Deque.pop_left()`: returns `None` on an empty deque, otherwise
unhooks the head node (the new head's `prev` is left untouched) and
returns the popped node's reference. -/
def Deque.pop_left {κ : Type} (d : Deque κ) : Option (Option Nat × Deque κ) :=
  match d.head with
  | none => some (none, d)
  | some h =>
    match d.nodes.get? h with
    | none => none
    | some hn =>
      some (some h, Deque.possibly_reset_pointers { d with head := hn.nxt })

/-- `if prev is not None: prev.nxt = nxt` of `remove_node` (a write to a
node object that may no longer be linked — Python object references stay
valid). -/
def Deque.write_prev_nxt {κ : Type} (nodes : List (DequeNode κ))
    (prev nxt : Option Nat) : Option (List (DequeNode κ)) :=
  match prev with
  | none => some nodes
  | some p =>
    match nodes.get? p with
    | none => none
    | some pn => some (nodes.set p { pn with nxt := nxt })

/-- `if nxt is not None: nxt.prev = prev` of `remove_node`. -/
def Deque.write_nxt_prev {κ : Type} (nodes : List (DequeNode κ))
    (prev nxt : Option Nat) : Option (List (DequeNode κ)) :=
  match nxt with
  | none => some nodes
  | some b =>
    match nodes.get? b with
    | none => none
    | some bn => some (nodes.set b { bn with prev := prev })

/-- `Deque.remove_node(node)`: raises `"invalid passed node"` when the
deque looks empty; otherwise rewires the neighbours of the referenced
node and fixes `head`/`tail` if the node was an endpoint. -/
def Deque.remove_node {κ : Type} (d : Deque κ) (a : Nat) : Option (Deque κ) :=
  if d.head.isNone || d.tail.isNone then none
  else
    match d.nodes.get? a with
    | none => none
    | some n => do
      let nodes1 ← Deque.write_prev_nxt d.nodes n.prev n.nxt
      let nodes2 ← Deque.write_nxt_prev nodes1 n.prev n.nxt
      let head' := if d.head = some a then n.nxt else d.head
      let tail' := if d.tail = some a then n.prev else d.tail
      some (Deque.possibly_reset_pointers ⟨nodes2, head', tail'⟩)

/-- `CacheEntry = namedtuple("CacheEntry", ["value", "lru_node"])` of
`main.py`: the stored value plus the reference to its deque node. -/
structure CacheEntry (α : Type) where
  value : Option α
  lru_node : Nat
deriving DecidableEq, Repr

/-- `class Cache` of `main.py`: key→entry dict plus the recency deque. -/
structure Cache (κ α : Type) where
  store : List (κ × CacheEntry α)
  capacity : Int
  lru_deque : Deque κ
deriving DecidableEq, Repr

/-- `Cache.__init__(capacity)`: no validation of the capacity. -/
def Cache.init (κ α : Type) (capacity : Int) : Cache κ α :=
  ⟨[], capacity, Deque.init κ⟩

variable {κ α : Type} [DecidableEq κ]

/-- `Cache._size()`. -/
def Cache.size (c : Cache κ α) : Nat := c.store.length

/-- `Cache._remove_and_readd_node(node)`: read `node.val`, unlink the
node, re-append that value at the tail; returns the new node. -/
def Cache.remove_and_readd_node (c : Cache κ α) (a : Nat) :
    Option (Nat × Deque κ) := do
  let n ← c.lru_deque.nodes.get? a
  let d1 ← c.lru_deque.remove_node a
  d1.append n.val

/-- `Cache.get(key)`: miss returns `DataResult(False, None)` without any
mutation; a hit promotes the entry's node to MRU and returns
`DataResult(True, value)`. -/
def Cache.get (c : Cache κ α) (key : κ) :
    Option (DataResult α × Cache κ α) :=
  match dictLookup c.store key with
  | none => some (⟨false, none⟩, c)
  | some e => do
      let (a2, d2) ← c.remove_and_readd_node e.lru_node
      some (⟨true, e.value⟩,
            { c with store := dictInsert c.store key ⟨e.value, a2⟩,
                     lru_deque := d2 })

/-- The eviction tail of `Cache.put`: pop the deque head (raising
`"lru data structure is not in line with cache"` when the pop comes back
empty) and delete the popped node's key from the store. -/
def Cache.evict_lru (store1 : List (κ × CacheEntry α)) (cap : Int)
    (d1 : Deque κ) : Option (Cache κ α) :=
  match d1.pop_left with
  | none => none
  | some (popped, d2) =>
    match popped with
    | none => none
    | some h =>
      match d2.nodes.get? h with
      | none => none
      | some hn => some ⟨dictDelete store1 hn.val, cap, d2⟩

/-- `Cache.put(key, value)`: update-in-place + promote, or append a new
entry and evict the head when `size > capacity`. -/
def Cache.put (c : Cache κ α) (key : κ) (value : Option α) :
    Option (Cache κ α) :=
  match dictLookup c.store key with
  | some e => do
      -- update case
      let (a2, d2) ← c.remove_and_readd_node e.lru_node
      some { c with store := dictInsert c.store key ⟨value, a2⟩,
                    lru_deque := d2 }
  | none => do
      -- new insertion case
      let (a, d1) ← c.lru_deque.append key
      let store1 := dictInsert c.store key ⟨value, a⟩
      if (store1.length : Int) > c.capacity then
        Cache.evict_lru store1 c.capacity d1
      else
        some ⟨store1, c.capacity, d1⟩

/-- One operation against the node-based cache. -/
def Cache.step (c : Cache κ α) : Op κ α → Option (Cache κ α)
  | .put k v => c.put k v
  | .get k => (c.get k).map Prod.snd

/-- Run a list of operations; `none` as soon as one raises. -/
def Cache.run (c : Cache κ α) : List (Op κ α) → Option (Cache κ α)
  | [] => some c
  | op :: t => (c.step op).bind fun c' => c'.run t

/-- Construct a `Cache` of the given capacity and run operations. -/
def Cache.exec (κ α : Type) [DecidableEq κ] (cap : Int)
    (ops : List (Op κ α)) : Option (Cache κ α) :=
  (Cache.init κ α cap).run ops

/-- `class MultiLevelCache` of `main.py`: two independent node-based
caches. -/
structure MultiLevelCache (κ α : Type) where
  l1 : Cache κ α
  l2 : Cache κ α
deriving DecidableEq, Repr

/-- `MultiLevelCache.__init__(capacity_l1, capacity_l2)`. -/
def MultiLevelCache.init (κ α : Type) (capacity_l1 capacity_l2 : Int) :
    MultiLevelCache κ α :=
  ⟨Cache.init κ α capacity_l1, Cache.init κ α capacity_l2⟩

/-- `MultiLevelCache.get_or_fetch(key, fetch_func)`.  The returned `Nat`
instruments the embedding with the number of times `fetch_func` was
invoked during the call (the call sites are exactly those of the source).
`fetch_func` returns `(found, data)`. -/
def MultiLevelCache.get_or_fetch (m : MultiLevelCache κ α) (key : κ)
    (fetch_func : κ → Bool × Option α) :
    Option (DataResult α × MultiLevelCache κ α × Nat) := do
  -- L1
  let (r1, l1') ← m.l1.get key
  if r1.found then
    some (r1, ⟨l1', m.l2⟩, 0)
  else do
    -- L2
    let (r2, l2') ← m.l2.get key
    if r2.found then do
      let l1'' ← l1'.put key r2.data
      some (r2, ⟨l1'', l2'⟩, 0)
    else
      -- miss
      let (found, data) := fetch_func key
      if !found then
        some (⟨false, none⟩, ⟨l1', l2'⟩, 1)
      else do
        let l2'' ← l2'.put key data
        let l1'' ← l1'.put key data
        some (⟨true, data⟩, ⟨l1'', l2''⟩, 1)

/-- `MultiLevelCache.put(key, value)`: writes only to L1. -/
def MultiLevelCache.put (m : MultiLevelCache κ α) (key : κ)
    (value : Option α) : Option (MultiLevelCache κ α) :=
  (m.l1.put key value).map fun l1' => ⟨l1', m.l2⟩

/-! ### Well-formedness of the node-based deque and cache

The analysis below is phrased over the list of arena addresses linked
from `head` to `tail` (the "chain").  Only forward `nxt`-links, backward
`prev`-links along the chain and endpoint pointers are constrained;
nodes that have been popped or removed stay in the arena (Python keeps
the objects alive while referenced) and may be pointed at by the head's
stale `prev` — exactly what `pop_left` leaves behind. -/

/-- The first element of `l`, or `s` when `l` is empty. -/
def headOr (l : List Nat) (s : Option Nat) : Option Nat :=
  match l with
  | [] => s
  | b :: _ => some b

/-- The last element of `l`, or `s` when `l` is empty. -/
def lastOr : List Nat → Option Nat → Option Nat
  | [], s => s
  | a :: t, _ => lastOr t (some a)

/-- The `nxt` field of the node at address `a`, if allocated. -/
def nxtOf {κ : Type} (ns : List (DequeNode κ)) (a : Nat) : Option (Option Nat) :=
  (ns.get? a).map DequeNode.nxt

/-- The `prev` field of the node at address `a`, if allocated. -/
def prevOf {κ : Type} (ns : List (DequeNode κ)) (a : Nat) : Option (Option Nat) :=
  (ns.get? a).map DequeNode.prev

/-- The `val` field of the node at address `a`, if allocated. -/
def valOf {κ : Type} (ns : List (DequeNode κ)) (a : Nat) : Option κ :=
  (ns.get? a).map DequeNode.val

/-- Each address of `l` is allocated and its `nxt` link points to the
following address; the last one points to `stop`. -/
def fwdOk {κ : Type} (ns : List (DequeNode κ)) : List Nat → Option Nat → Prop
  | [], _ => True
  | a :: t, stop => nxtOf ns a = some (headOr t stop) ∧ fwdOk ns t stop

/-- Each address of `l` is allocated and its `prev` link points to the
preceding address, the first one to `s`. -/
def bwdOk {κ : Type} (ns : List (DequeNode κ)) : Option Nat → List Nat → Prop
  | _, [] => True
  | s, a :: t => prevOf ns a = some s ∧ bwdOk ns (some a) t

/-- The chain head's `prev` is `None` or a stale reference to a node
outside the chain (as left behind by `pop_left`). -/
def headPrevOk {κ : Type} (ns : List (DequeNode κ)) : List Nat → Prop
  | [] => True
  | h :: t => prevOf ns h = some none
      ∨ ∃ p, prevOf ns h = some (some p) ∧ p ∉ h :: t

/-- `l` is the chain of the deque: endpoints, forward links, backward
links and the stale-head-prev discipline. -/
def ChainOk {κ : Type} (d : Deque κ) (l : List Nat) : Prop :=
  d.head = headOr l none ∧ d.tail = lastOr l none ∧ l.Nodup
    ∧ fwdOk d.nodes l none
    ∧ headPrevOk d.nodes l
    ∧ (match l with
       | [] => True
       | h :: t => bwdOk d.nodes (some h) t)

/-- Every link field of every allocated node stays inside the arena
(object references are always valid in Python; the arena only grows). -/
def AllValid {κ : Type} (ns : List (DequeNode κ)) : Prop :=
  ∀ n ∈ ns, OptLt n.prev ns.length ∧ OptLt n.nxt ns.length

/-- Well-formedness of a deque with chain `l`. -/
def ChainInv {κ : Type} (d : Deque κ) (l : List Nat) : Prop :=
  ChainOk d l ∧ AllValid d.nodes

/-- Well-formedness of a node-based cache with chain `l`: the store and
the chain describe the same keys, node values are the keys, and both the
keys and the node addresses of the store are duplicate-free. -/
def NodeInv {κ α : Type} [DecidableEq κ] (c : Cache κ α) (l : List Nat) : Prop :=
  ChainInv c.lru_deque l
    ∧ l.length = c.store.length
    ∧ (c.store.map Prod.fst).Nodup
    ∧ (c.store.map fun p => p.2.lru_node).Nodup
    ∧ (∀ p ∈ c.store,
        p.2.lru_node ∈ l ∧ valOf c.lru_deque.nodes p.2.lru_node = some p.1)
    ∧ (∀ a ∈ l, ∃ k e, (k, e) ∈ c.store ∧ e.lru_node = a)

/-- A node-based cache state is well formed when some chain witnesses it. -/
def WFCache {κ α : Type} [DecidableEq κ] (c : Cache κ α) : Prop :=
  ∃ l, NodeInv c l

/-! ### Slab-variant claim exhibits (concrete executions) -/

/-- C1: the claim asserts that after each operation the mapping's key set
equals the set of keys linked in the ordering structure, for both
variants.  The slab variant violates it: with capacity 2, after
`put("a",1); put("b",2); get("b")` the promotion of the already-MRU entry
`b` sets `slab[1].prev` to itself and clears `a`'s `nxt`, so the mapping
holds keys `a, b` while the chain from `head` links only `a`. -/
theorem c1_slab_keyset_mismatch :
    (Slab.LRUCache.exec String Nat 2
        [.put "a" (some 1), .put "b" (some 2), .get "b"]).map
      (fun s => (s.key_to_index.map Prod.fst, s.debug_str)) =
    some (["a", "b"], some [("a", some 1)]) := by decide

/-- C2: the literal capacity-3 slab scenario.  The first three checkpoints
(`a:1,b:2,c:3`, then `a:1,c:3,b:2` after `get("b")`, then `a:1,b:2,c:2`
after the update `put("c",2)`) hold, but `put("d",4)` — the first
eviction — raises `AttributeError` (`self.tail.nxt = index` with
`self.tail` an integer), so the claimed orders `c:2, d:4, e:5` and
`d:4, e:5, c:2` are never produced. -/
theorem c2_slab_scenario_crashes_at_first_eviction :
    ((Slab.LRUCache.exec String Nat 3
        [.put "a" (some 1), .put "b" (some 2), .put "c" (some 3)]).map
      (fun s => s.debug_str) =
      some (some [("a", some 1), ("b", some 2), ("c", some 3)]))
    ∧ ((Slab.LRUCache.exec String Nat 3
        [.put "a" (some 1), .put "b" (some 2), .put "c" (some 3),
         .get "b"]).map (fun s => s.debug_str) =
      some (some [("a", some 1), ("c", some 3), ("b", some 2)]))
    ∧ ((Slab.LRUCache.exec String Nat 3
        [.put "a" (some 1), .put "b" (some 2), .put "c" (some 3),
         .get "b", .put "c" (some 2)]).map (fun s => s.debug_str) =
      some (some [("a", some 1), ("b", some 2), ("c", some 2)]))
    ∧ (Slab.LRUCache.exec String Nat 3
        [.put "a" (some 1), .put "b" (some 2), .put "c" (some 3),
         .get "b", .put "c" (some 2), .put "d" (some 4)] = none) := by
  refine ⟨by decide, by decide, by decide, by decide⟩

/-- C5: the claim asserts the ordering structure always stays a single
acyclic head-to-tail chain with mutually consistent `next`/`prev` reach.
Slab counterexample (capacity 3): after `put a; put b; put c; get c`, the
promotion of the tail entry leaves `head = 0`, `tail = 2`, forward
reachability from head = `[0, 1]` (the tail slot 2 is unreachable), the
entry at the tail has `prev = 2` — a self-loop, so the backward walk from
`tail` never reaches `head` (it exhausts fuel 4 > 3 slots, hence revisits
a slot). -/
theorem c5_slab_promote_tail_breaks_chain :
    (Slab.LRUCache.exec String Nat 3
        [.put "a" (some 1), .put "b" (some 2), .put "c" (some 3),
         .get "c"]).map
      (fun s => (s.head, s.tail, Slab.idxWalkNxt s 4 s.head,
                 Slab.idxWalkPrev s 4 s.tail,
                 (Slab.sRead s.slab 2).map Slab.CacheEntry.prev)) =
    some (some 0, some 2, some [0, 1], none, some (some 2)) := by rfl

/-- C6: the claim asserts that after any successful `get` the key sits at
the MRU end of the recency order.  Slab counterexample (capacity 3):
`get("c")` on the already-MRU key `c` succeeds and returns its value 3,
but afterwards the LRU-to-MRU order is `a:1, b:2` — `c` is not last, it
has dropped out of the order entirely. -/
theorem c6_slab_get_mru_key_not_at_mru :
    ((Slab.LRUCache.exec String Nat 3
        [.put "a" (some 1), .put "b" (some 2), .put "c" (some 3)]).bind
      (fun s => s.get "c")).map
      (fun p => (p.1, p.2.debug_str)) =
    some (some 3, some [("a", some 1), ("b", some 2)]) := by decide

/-! ### Slab-variant lemmas -/

namespace Slab

variable {κ α : Type} [DecidableEq κ]

theorem sWrite_eq_some {slab : List (Option (CacheEntry α))} {i : Nat}
    {e : CacheEntry α} {slab' : List (Option (CacheEntry α))}
    (h : sWrite slab i e = some slab') :
    i < slab.length ∧ slab' = slab.set i (some e) := by
  unfold sWrite at h
  split at h
  · exact ⟨by assumption, (Option.some_inj.mp h).symm⟩
  · cases h

theorem sWrite_length {slab : List (Option (CacheEntry α))} {i : Nat}
    {e : CacheEntry α} {slab' : List (Option (CacheEntry α))}
    (h : sWrite slab i e = some slab') : slab'.length = slab.length := by
  obtain ⟨_, rfl⟩ := sWrite_eq_some h
  simp

theorem sRead_sWrite_self {slab : List (Option (CacheEntry α))} {i : Nat}
    {e : CacheEntry α} {slab' : List (Option (CacheEntry α))}
    (h : sWrite slab i e = some slab') : sRead slab' i = some e := by
  obtain ⟨hi, rfl⟩ := sWrite_eq_some h
  simp [sRead, List.getElem?_set_eq_of_lt _ hi]

theorem sRead_sWrite_ne {slab : List (Option (CacheEntry α))} {i j : Nat}
    {e : CacheEntry α} {slab' : List (Option (CacheEntry α))}
    (h : sWrite slab i e = some slab') (hj : j ≠ i) :
    sRead slab' j = sRead slab j := by
  obtain ⟨hi, rfl⟩ := sWrite_eq_some h
  simp [sRead, List.getElem?_set_ne (Ne.symm hj)]

theorem valAt_sWrite {slab : List (Option (CacheEntry α))} {i : Nat}
    {e : CacheEntry α} {slab' : List (Option (CacheEntry α))}
    (h : sWrite slab i e = some slab') (j : Nat) :
    valAt slab' j = if j = i then some e.value else valAt slab j := by
  by_cases hj : j = i
  · subst hj; simp [valAt, sRead_sWrite_self h]
  · simp [valAt, sRead_sWrite_ne h hj, hj]

/-- A write that stores back the value it just read preserves the whole
value map of the slab. -/
theorem valAt_write_read {slab : List (Option (CacheEntry α))} {i : Nat}
    {e0 e : CacheEntry α} {slab' : List (Option (CacheEntry α))}
    (hw : sWrite slab i e = some slab') (hr : sRead slab i = some e0)
    (hv : e.value = e0.value) (j : Nat) :
    valAt slab' j = valAt slab j := by
  rw [valAt_sWrite hw]
  split
  · next hj => subst hj; simp [valAt, hr, hv]
  · rfl

/-- `fix_prev` preserves every stored value and the slab length. -/
theorem fix_prev_facts {slab slab' : List (Option (CacheEntry α))}
    {prev nxt : Option Nat} (h : fix_prev slab prev nxt = some slab') :
    (∀ j, valAt slab' j = valAt slab j) ∧ slab'.length = slab.length := by
  unfold fix_prev at h
  cases prev with
  | none => cases h; exact ⟨fun _ => rfl, rfl⟩
  | some p =>
      simp only [bind, Option.bind_eq_some] at h
      obtain ⟨op, hop, hw⟩ := h
      exact ⟨valAt_write_read hw hop rfl, sWrite_length hw⟩

/-- `fix_nxt` preserves every stored value and the slab length. -/
theorem fix_nxt_facts {slab slab' : List (Option (CacheEntry α))}
    {prev nxt : Option Nat} (h : fix_nxt slab prev nxt = some slab') :
    (∀ j, valAt slab' j = valAt slab j) ∧ slab'.length = slab.length := by
  unfold fix_nxt at h
  cases nxt with
  | none => cases h; exact ⟨fun _ => rfl, rfl⟩
  | some nx =>
      simp only [bind, Option.bind_eq_some] at h
      obtain ⟨onx, honx, hw⟩ := h
      exact ⟨valAt_write_read hw honx rfl, sWrite_length hw⟩

/-- `link_old_tail` preserves every stored value and the slab length. -/
theorem link_old_tail_facts {slab slab' : List (Option (CacheEntry α))}
    {tl : Option Nat} {index : Nat}
    (h : link_old_tail slab tl index = some slab') :
    (∀ j, valAt slab' j = valAt slab j) ∧ slab'.length = slab.length := by
  unfold link_old_tail at h
  cases tl with
  | none => cases h; exact ⟨fun _ => rfl, rfl⟩
  | some t =>
      simp only [bind, Option.bind_eq_some] at h
      obtain ⟨pt, hpt, hw⟩ := h
      exact ⟨valAt_write_read hw hpt rfl, sWrite_length hw⟩

/-- `fix_tail` only rewrites link fields and the tail pointer. -/
theorem fix_tail_facts {c : LRUCache κ α}
    {slab3 : List (Option (CacheEntry α))} {i : Nat} {c1 : LRUCache κ α}
    (h : fix_tail c slab3 i = some c1) :
    c1.key_to_index = c.key_to_index ∧ c1.capacity = c.capacity
      ∧ c1.size = c.size
      ∧ (∀ j, valAt c1.slab j = valAt slab3 j)
      ∧ c1.slab.length = slab3.length
      ∧ (c1.tail = some i ∨ c1.tail = c.tail) := by
  unfold fix_tail at h
  split at h
  · simp only [bind, Option.bind_eq_some, Option.some_inj] at h
    obtain ⟨t, ht, pt, hpt, s4, hs4, hc⟩ := h
    subst hc
    exact ⟨rfl, rfl, rfl, valAt_write_read hs4 hpt rfl,
      sWrite_length hs4, Or.inl rfl⟩
  · cases h
    exact ⟨rfl, rfl, rfl, fun _ => rfl, rfl, Or.inr rfl⟩

/-- `_promote_to_mru` never touches the key map, the size, the capacity,
the slab length or any stored value; the tail afterwards is the promoted
index or is unchanged. -/
theorem promote_facts {c : LRUCache κ α} {i : Nat} {c' : LRUCache κ α}
    (h : c.promote_to_mru i = some c') :
    c'.key_to_index = c.key_to_index ∧ c'.capacity = c.capacity
      ∧ c'.size = c.size ∧ c'.slab.length = c.slab.length
      ∧ (∀ j, valAt c'.slab j = valAt c.slab j)
      ∧ (c'.tail = some i ∨ c'.tail = c.tail) := by
  simp only [LRUCache.promote_to_mru, bind, Option.bind_eq_some,
    Option.some_inj] at h
  obtain ⟨ce, hce, s1, hs1, s2, hs2, s3, hs3, c1, hc1, hc'⟩ := h
  have hv1 : ∀ j, valAt s1 j = valAt c.slab j :=
    valAt_write_read hs1 hce rfl
  have hl1 : s1.length = c.slab.length := sWrite_length hs1
  have h2 := fix_prev_facts hs2
  have h3 := fix_nxt_facts hs3
  have h4 := fix_tail_facts hc1
  subst hc'
  refine ⟨h4.1, h4.2.1, h4.2.2.1, ?_, ?_, ?_⟩
  · rw [h4.2.2.2.2.1, h3.2, h2.2, hl1]
  · intro j
    rw [h4.2.2.2.1 j, h3.1 j, h2.1 j, hv1 j]
  · exact h4.2.2.2.2.2
end Slab

/-! ### Claims C7, C8, C9, C10 -/

/-- C7: when the key is absent from both tiers and `fetch` reports
not-found, `get_or_fetch` returns not-found, invokes `fetch` exactly once,
and returns the multi-level cache state completely unchanged — hence a
repetition of the identical call runs through the very same equation and
again mutates nothing (not-found is never cached). -/
theorem c7_fetch_not_found_mutates_nothing {κ α : Type} [DecidableEq κ]
    (m : MultiLevelCache κ α) (k : κ) (fetch_func : κ → Bool × Option α)
    (d : Option α)
    (h1 : dictLookup m.l1.store k = none)
    (h2 : dictLookup m.l2.store k = none)
    (hf : fetch_func k = (false, d)) :
    m.get_or_fetch k fetch_func = some (⟨false, none⟩, m, 1) := by
  simp [MultiLevelCache.get_or_fetch, Cache.get, h1, h2, hf]

/-- Witness for C7 at a concrete input: the empty two-tier cache with an
always-failing fetch. -/
theorem c7_witness :
    dictLookup (MultiLevelCache.init Nat Nat 1 2).l1.store 5 = none
      ∧ dictLookup (MultiLevelCache.init Nat Nat 1 2).l2.store 5 = none
      ∧ (MultiLevelCache.init Nat Nat 1 2).get_or_fetch 5
          (fun _ => (false, none)) =
        some (⟨false, none⟩, MultiLevelCache.init Nat Nat 1 2, 1) :=
  ⟨rfl, rfl,
    c7_fetch_not_found_mutates_nothing (MultiLevelCache.init Nat Nat 1 2) 5
      (fun _ => (false, none)) none rfl rfl rfl⟩

/-- C8: the claim says capacity ≤ 0 is rejected at construction time.  It
is not: both constructors accept any capacity.  `Cache(0)` even services
`put` without error while silently retaining nothing, and
`LRUCache(0)` / `LRUCache(-1)` only fail at the first `put`
(`slab[None]` / an out-of-range slab write) — the failure is deferred,
not a construction-time configuration error.  The capacity-1 structural
half of the claim does hold: a single `put` yields a one-element chain
with `head = tail` in both variants. -/
theorem c8_capacity_accepted_at_construction :
    ((Cache.init Nat Nat 0).capacity = 0
      ∧ (Cache.exec Nat Nat 0 [.put 1 (some 1)]).map (fun c => c.store) =
          some [])
    ∧ ((Slab.LRUCache.init String Nat 0).capacity = 0
      ∧ (Slab.LRUCache.init String Nat 0).put "a" (some 1) = none
      ∧ (Slab.LRUCache.init String Nat (-1)).put "a" (some 1) = none)
    ∧ ((Cache.exec Nat Nat 1 [.put 1 (some 7)]).map
          (fun c => (c.lru_deque.head, c.lru_deque.tail)) =
        some (some 0, some 0)
      ∧ (Slab.LRUCache.exec String Nat 1 [.put "a" (some 1)]).map
          (fun s => (s.head, s.tail)) = some (some 0, some 0)) := by
  refine ⟨⟨rfl, rfl⟩, ⟨rfl, rfl, rfl⟩, rfl, rfl⟩

/-- C9: `MultiLevelCache.put` is exactly an L1 `put` with the L2 state
carried over untouched (same mapping, ordering and size); so a direct
`put` can place a key in L1 that never reaches L2, and any eviction is
L1's own doing. -/
theorem c9_put_writes_only_l1 {κ α : Type} [DecidableEq κ]
    (m : MultiLevelCache κ α) (k : κ) (v : Option α) :
    m.put k v =
      (m.l1.put k v).map (fun l1' => (⟨l1', m.l2⟩ : MultiLevelCache κ α)) :=
  rfl

/-- C10: the slab `get` returns the bare stored value on a hit and the
sentinel `None` on a miss, so a hit on a key whose stored value is `None`
is indistinguishable from a miss; the node-based `Cache.get` instead
returns an explicit `(found, data)` pair that distinguishes the two. -/
theorem c10_slab_get_conflates_none_hit_with_miss {κ α : Type}
    [DecidableEq κ] :
    (∀ (c : Slab.LRUCache κ α) (k : κ) (i : Nat),
        dictLookup c.key_to_index k = some i →
        Slab.valAt c.slab i = some none →
        (c.get k).isSome = true →
        (c.get k).map Prod.fst = some none)
    ∧ (∀ (c : Slab.LRUCache κ α) (k : κ),
        dictLookup c.key_to_index k = none → c.get k = some (none, c))
    ∧ (∀ (c : Cache κ α) (k : κ) (e : CacheEntry α),
        dictLookup c.store k = some e → e.value = none →
        (c.get k).isSome = true →
        (c.get k).map Prod.fst = some ⟨true, none⟩)
    ∧ (∀ (c : Cache κ α) (k : κ),
        dictLookup c.store k = none → c.get k = some (⟨false, none⟩, c)) := by
  refine ⟨?_, ?_, ?_, ?_⟩
  · intro c k i h1 h2 h3
    obtain ⟨⟨r, c'⟩, hr⟩ := Option.isSome_iff_exists.mp h3
    have h3' := hr
    simp only [Slab.LRUCache.get, h1, bind, Option.bind_eq_some,
      Option.some_inj] at h3'
    obtain ⟨c1, hp, e, he, heq⟩ := h3'
    have hv := (Slab.promote_facts hp).2.2.2.2.1 i
    rw [h2] at hv
    unfold Slab.valAt at hv
    rw [he] at hv
    simp only [Option.map_some'] at hv
    have hrn : r = none := by
      have := congrArg Prod.fst heq
      simp at this
      rw [← this, Option.some_inj.mp hv]
    rw [hr, hrn]
    rfl
  · intro c k h
    simp [Slab.LRUCache.get, h]
  · intro c k e h1 h2 h3
    obtain ⟨⟨r, c'⟩, hr⟩ := Option.isSome_iff_exists.mp h3
    have h3' := hr
    simp only [Cache.get, h1, bind, Option.bind_eq_some,
      Option.some_inj] at h3'
    obtain ⟨⟨a2, d2⟩, hra, heq⟩ := h3'
    have hrr : r = ⟨true, e.value⟩ := by
      have := congrArg Prod.fst heq
      simpa using this.symm
    rw [hr, hrr, h2]
    rfl
  · intro c k h
    simp [Cache.get, h]

/-- Witness for C10 at concrete inputs: a capacity-1 cache of either
variant holding the single key with stored value `None`. -/
theorem c10_witness :
    (dictLookup ([("a", 0)] : List (String × Nat)) "a" = some 0
      ∧ Slab.valAt [some (⟨none, none, none⟩ : Slab.CacheEntry Nat)] 0 =
          some none
      ∧ (Slab.LRUCache.get
            (⟨[some ⟨none, none, none⟩], 1, [("a", 0)], some 0, some 0, 1⟩ :
              Slab.LRUCache String Nat) "a").map Prod.fst = some none
      ∧ Slab.LRUCache.get
          (⟨[some ⟨none, none, none⟩], 1, [("a", 0)], some 0, some 0, 1⟩ :
            Slab.LRUCache String Nat) "b" =
          some (none, ⟨[some ⟨none, none, none⟩], 1, [("a", 0)], some 0,
            some 0, 1⟩))
    ∧ ((Cache.get
          (⟨[(1, ⟨none, 0⟩)], 1, ⟨[⟨1, none, none⟩], some 0, some 0⟩⟩ :
            Cache Nat Nat) 1).map Prod.fst = some ⟨true, none⟩
      ∧ Cache.get
          (⟨[(1, ⟨none, 0⟩)], 1, ⟨[⟨1, none, none⟩], some 0, some 0⟩⟩ :
            Cache Nat Nat) 2 =
          some (⟨false, none⟩,
            ⟨[(1, ⟨none, 0⟩)], 1, ⟨[⟨1, none, none⟩], some 0, some 0⟩⟩)) := by
  refine ⟨⟨rfl, rfl, ?_, ?_⟩, ?_, ?_⟩
  · exact c10_slab_get_conflates_none_hit_with_miss.1 _ "a" 0 rfl rfl rfl
  · exact c10_slab_get_conflates_none_hit_with_miss.2.1 _ "b" rfl
  · exact c10_slab_get_conflates_none_hit_with_miss.2.2.1 _ 1 ⟨none, 0⟩
      rfl rfl rfl
  · exact c10_slab_get_conflates_none_hit_with_miss.2.2.2 _ 2 rfl

/-! ### List and arena lemmas for the node-based chain -/

section ChainLemmas

variable {κ : Type}

theorem headOr_append (t ys : List Nat) (stop : Option Nat) :
    headOr (t ++ ys) stop = headOr t (headOr ys stop) := by
  cases t <;> rfl

theorem lastOr_append (xs ys : List Nat) (s : Option Nat) :
    lastOr (xs ++ ys) s = lastOr ys (lastOr xs s) := by
  induction xs generalizing s with
  | nil => rfl
  | cons a t ih => simp [lastOr, ih]

theorem lastOr_mem : ∀ (l : List Nat) (s : Option Nat) (t : Nat),
    lastOr l s = some t → t ∈ l ∨ s = some t := by
  intro l
  induction l with
  | nil => intro s t h; exact Or.inr h
  | cons a l' ih =>
      intro s t h
      rcases ih (some a) t h with h' | h'
      · exact Or.inl (List.mem_cons_of_mem _ h')
      · exact Or.inl (by simp [Option.some_inj.mp h'])

theorem lastOr_cons (a : Nat) (t : List Nat) (s : Option Nat) :
    lastOr (a :: t) s = lastOr t (some a) := rfl

theorem fwdOk_append (ns : List (DequeNode κ)) :
    ∀ (xs ys : List Nat) (stop : Option Nat),
      fwdOk ns (xs ++ ys) stop ↔
        fwdOk ns xs (headOr ys stop) ∧ fwdOk ns ys stop := by
  intro xs
  induction xs with
  | nil => intro ys stop; simp [fwdOk]
  | cons a t ih =>
      intro ys stop
      simp only [List.cons_append, List.append_eq, fwdOk, headOr_append, ih, and_assoc]

theorem bwdOk_append (ns : List (DequeNode κ)) :
    ∀ (xs ys : List Nat) (s : Option Nat),
      bwdOk ns s (xs ++ ys) ↔
        bwdOk ns s xs ∧ bwdOk ns (lastOr xs s) ys := by
  intro xs
  induction xs with
  | nil => intro ys s; simp [bwdOk, lastOr]
  | cons a t ih =>
      intro ys s
      simp only [List.cons_append, List.append_eq, bwdOk, lastOr_cons, ih, and_assoc]

theorem fwdOk_frame {ns ns' : List (DequeNode κ)} :
    ∀ {l : List Nat} {stop : Option Nat},
      (∀ a ∈ l, nxtOf ns' a = nxtOf ns a) → fwdOk ns l stop →
      fwdOk ns' l stop := by
  intro l
  induction l with
  | nil => intro stop _ _; trivial
  | cons a t ih =>
      intro stop hfr hf
      exact ⟨by rw [hfr a (by simp)]; exact hf.1,
        ih (fun b hb => hfr b (List.mem_cons_of_mem _ hb)) hf.2⟩

theorem bwdOk_frame {ns ns' : List (DequeNode κ)} :
    ∀ {l : List Nat} {s : Option Nat},
      (∀ a ∈ l, prevOf ns' a = prevOf ns a) → bwdOk ns s l →
      bwdOk ns' s l := by
  intro l
  induction l with
  | nil => intro s _ _; trivial
  | cons a t ih =>
      intro s hfr hb
      exact ⟨by rw [hfr a (by simp)]; exact hb.1,
        ih (fun b hb' => hfr b (List.mem_cons_of_mem _ hb')) hb.2⟩

theorem headPrevOk_frame {ns ns' : List (DequeNode κ)} {l : List Nat}
    (hfr : ∀ a ∈ l, prevOf ns' a = prevOf ns a) (h : headPrevOk ns l) :
    headPrevOk ns' l := by
  cases l with
  | nil => trivial
  | cons h' t =>
      rcases h with h1 | ⟨p, hp, hnp⟩
      · exact Or.inl (by rw [hfr h' (by simp)]; exact h1)
      · exact Or.inr ⟨p, by rw [hfr h' (by simp)]; exact hp, hnp⟩

theorem fwdOk_get?_isSome {ns : List (DequeNode κ)} :
    ∀ {l : List Nat} {stop : Option Nat} {a : Nat},
      fwdOk ns l stop → a ∈ l → ∃ n, ns.get? a = some n := by
  intro l
  induction l with
  | nil => intro _ _ h hm; cases hm
  | cons b t ih =>
      intro stop a hf hm
      rcases List.mem_cons.mp hm with rfl | hm'
      · have := hf.1
        unfold nxtOf at this
        cases hb : ns.get? a with
        | none => rw [hb] at this; cases this
        | some n => exact ⟨n, rfl⟩
      · exact ih hf.2 hm'

theorem fwdOk_mem_lt {ns : List (DequeNode κ)} {l : List Nat}
    {stop : Option Nat} {a : Nat} (hf : fwdOk ns l stop) (hm : a ∈ l) :
    a < ns.length := by
  obtain ⟨n, hn⟩ := fwdOk_get?_isSome hf hm
  by_contra h'
  rw [List.get?_eq_none.mpr (Nat.le_of_not_lt h')] at hn
  cases hn

theorem fwdOk_update_last {ns ns' : List (DequeNode κ)} :
    ∀ {l : List Nat} {t : Nat} {stop stop' : Option Nat},
      fwdOk ns l stop → lastOr l none = some t → l.Nodup →
      (∀ a ∈ l, a ≠ t → nxtOf ns' a = nxtOf ns a) →
      nxtOf ns' t = some stop' → fwdOk ns' l stop' := by
  intro l
  induction l with
  | nil => intro t stop stop' _ hlast; simp [lastOr] at hlast
  | cons a l' ih =>
      intro t stop stop' hf hlast hnd hfr hT
      cases l' with
      | nil =>
          have hat : a = t := by simpa [lastOr] using hlast
          subst hat
          exact ⟨by simpa [headOr] using hT, trivial⟩
      | cons b l'' =>
          have htm : t ∈ b :: l'' := by
            have hl : lastOr (b :: l'') none = some t := hlast
            rcases lastOr_mem _ _ _ hl with h' | h'
            · exact h'
            · cases h'
          have hat : a ≠ t := fun hh =>
            (List.nodup_cons.mp hnd).1 (hh ▸ htm)
          refine ⟨?_, ?_⟩
          · rw [hfr a (by simp) hat]
            exact hf.1
          · exact ih hf.2 hlast (List.nodup_cons.mp hnd).2
              (fun x hx hxt => hfr x (List.mem_cons_of_mem _ hx) hxt) hT

end ChainLemmas

section ArenaLemmas

variable {κ : Type}

theorem OptLt_mono {o : Option Nat} {n m : Nat} (h : OptLt o n) (hm : n ≤ m) :
    OptLt o m := by
  cases o with
  | none => trivial
  | some j => exact Nat.lt_of_lt_of_le h hm

theorem get?_concat {β : Type} (ns : List β) (nd : β) (j : Nat) :
    (ns ++ [nd]).get? j = if j = ns.length then some nd else ns.get? j := by
  rcases lt_trichotomy j ns.length with h | h | h
  · rw [List.get?_append h, if_neg (Nat.ne_of_lt h)]
  · subst h; rw [List.get?_concat_length, if_pos rfl]
  · have h1 : (ns ++ [nd]).get? j = none :=
      List.get?_eq_none.mpr (by simp; omega)
    have h2 : ns.get? j = none := List.get?_eq_none.mpr (by omega)
    rw [h1, h2, if_neg (by omega)]

theorem valOf_concat (ns : List (DequeNode κ)) (nd : DequeNode κ) (j : Nat) :
    valOf (ns ++ [nd]) j =
      if j = ns.length then some nd.val else valOf ns j := by
  unfold valOf; rw [get?_concat]; split <;> rfl

theorem prevOf_concat (ns : List (DequeNode κ)) (nd : DequeNode κ) (j : Nat) :
    prevOf (ns ++ [nd]) j =
      if j = ns.length then some nd.prev else prevOf ns j := by
  unfold prevOf; rw [get?_concat]; split <;> rfl

theorem nxtOf_concat (ns : List (DequeNode κ)) (nd : DequeNode κ) (j : Nat) :
    nxtOf (ns ++ [nd]) j =
      if j = ns.length then some nd.nxt else nxtOf ns j := by
  unfold nxtOf; rw [get?_concat]; split <;> rfl

theorem valOf_set {ns : List (DequeNode κ)} {p : Nat} (hp : p < ns.length)
    (nd : DequeNode κ) (j : Nat) :
    valOf (ns.set p nd) j = if p = j then some nd.val else valOf ns j := by
  unfold valOf; rw [List.get?_set_of_lt' nd ns hp]; split <;> rfl

theorem prevOf_set {ns : List (DequeNode κ)} {p : Nat} (hp : p < ns.length)
    (nd : DequeNode κ) (j : Nat) :
    prevOf (ns.set p nd) j = if p = j then some nd.prev else prevOf ns j := by
  unfold prevOf; rw [List.get?_set_of_lt' nd ns hp]; split <;> rfl

theorem nxtOf_set {ns : List (DequeNode κ)} {p : Nat} (hp : p < ns.length)
    (nd : DequeNode κ) (j : Nat) :
    nxtOf (ns.set p nd) j = if p = j then some nd.nxt else nxtOf ns j := by
  unfold nxtOf; rw [List.get?_set_of_lt' nd ns hp]; split <;> rfl

theorem get?_lt_length {β : Type} {ns : List β} {a : Nat} {n : β}
    (h : ns.get? a = some n) : a < ns.length := by
  by_contra h'
  rw [List.get?_eq_none.mpr (Nat.le_of_not_lt h')] at h
  cases h

theorem lastOr_cons_isSome (x : Nat) (xs : List Nat) :
    ∃ t, lastOr (x :: xs) none = some t ∧ t ∈ x :: xs := by
  have : ∀ (l : List Nat) (a : Nat), ∃ t, lastOr l (some a) = some t ∧
      (t ∈ l ∨ t = a) := by
    intro l
    induction l with
    | nil => exact fun a => ⟨a, rfl, Or.inr rfl⟩
    | cons b l' ih =>
        intro a
        obtain ⟨t, h1, h2⟩ := ih b
        exact ⟨t, h1, Or.inl (by rcases h2 with h | h <;> simp [h])⟩
  obtain ⟨t, h1, h2⟩ := this xs x
  exact ⟨t, h1, by rcases h2 with h | h <;> simp [h]⟩

theorem AllValid_get? {ns : List (DequeNode κ)} {a : Nat} {n : DequeNode κ}
    (hav : AllValid ns) (h : ns.get? a = some n) :
    OptLt n.prev ns.length ∧ OptLt n.nxt ns.length :=
  hav n (List.get?_mem h)

end ArenaLemmas

section DequeOps

variable {κ : Type}

theorem Deque.append_chain {d : Deque κ} {l : List Nat} (hc : ChainInv d l)
    (v : κ) :
    ∃ d', d.append v = some (d.nodes.length, d')
      ∧ ChainInv d' (l ++ [d.nodes.length])
      ∧ d'.nodes.length = d.nodes.length + 1
      ∧ (∀ j, valOf d'.nodes j =
          if j = d.nodes.length then some v else valOf d.nodes j) := by
  obtain ⟨⟨hh, ht, hnd, hfwd, hhp, hbwd⟩, hav⟩ := hc
  cases l with
  | nil =>
      have hh' : d.head = none := hh
      have ht' : d.tail = none := ht
      refine ⟨⟨d.nodes ++ [⟨v, none, none⟩], some d.nodes.length,
        some d.nodes.length⟩, ?_, ⟨⟨rfl, rfl, by simp, ?_, ?_, trivial⟩, ?_⟩,
        by simp, ?_⟩
      · simp [Deque.append, hh', ht']
      · exact ⟨by simp [nxtOf_concat, headOr], trivial⟩
      · exact Or.inl (by simp [prevOf_concat])
      · intro n hn
        rcases List.mem_append.mp hn with h | h
        · have := hav n h
          simp only [List.length_append, List.length_cons, List.length_nil]
          exact ⟨OptLt_mono this.1 (by omega), OptLt_mono this.2 (by omega)⟩
        · simp only [List.mem_singleton] at h
          subst h
          exact ⟨trivial, trivial⟩
      · intro j
        rw [valOf_concat]
  | cons x xs =>
      have hh' : d.head = some x := hh
      obtain ⟨t, htl, htm⟩ := lastOr_cons_isSome x xs
      have ht' : d.tail = some t := by rw [ht]; exact htl
      have htlt : t < d.nodes.length := fwdOk_mem_lt hfwd htm
      obtain ⟨tn, htn⟩ := fwdOk_get?_isSome hfwd htm
      have hget0 : (d.nodes ++ [(⟨v, none, none⟩ : DequeNode κ)]).get? t =
          some tn := by
        rw [get?_concat, if_neg (Nat.ne_of_lt htlt)]; exact htn
      have hlen0 : (d.nodes ++ [(⟨v, none, none⟩ : DequeNode κ)]).length =
          d.nodes.length + 1 := by simp
      have hlen1 : ((d.nodes ++ [(⟨v, none, none⟩ : DequeNode κ)]).set t
          { tn with nxt := some d.nodes.length }).length =
          d.nodes.length + 1 := by simp
      set ns := d.nodes with hns
      set len := ns.length with hlendef
      set nodes2 := ((ns ++ [(⟨v, none, none⟩ : DequeNode κ)]).set t
          { tn with nxt := some len }).set len
          (⟨v, some t, none⟩ : DequeNode κ) with hn2
      have hlen2 : nodes2.length = len + 1 := by
        rw [hn2]; simp
      have htne : t ≠ len := Nat.ne_of_lt htlt
      have hval2 : ∀ j, valOf nodes2 j = if j = len then some v
          else valOf ns j := by
        intro j
        rw [hn2, valOf_set (by rw [hlen1]; omega), valOf_set
          (by rw [hlen0]; omega), valOf_concat]
        by_cases hj : j = len
        · simp [hj]
        · rcases eq_or_ne t j with hj2 | hj2
          · subst hj2
            have : valOf ns t = some tn.val := by unfold valOf; rw [htn]; rfl
            simp [Ne.symm htne, hj, this]
          · simp [hj, Ne.symm hj, Ne.symm hj2, hj2]
      have hprev2 : ∀ j, j ≠ len → prevOf nodes2 j = prevOf ns j := by
        intro j hj
        rw [hn2, prevOf_set (by rw [hlen1]; omega), prevOf_set
          (by rw [hlen0]; omega), prevOf_concat]
        rcases eq_or_ne t j with hj2 | hj2
        · subst hj2
          have : prevOf ns t = some tn.prev := by unfold prevOf; rw [htn]; rfl
          simp [Ne.symm hj, hj, this]
        · simp [Ne.symm hj, hj, hj2]
      have hprevA : prevOf nodes2 len = some (some t) := by
        rw [hn2, prevOf_set (by rw [hlen1]; omega)]
        simp
      have hnxt2 : ∀ j, j ≠ len → j ≠ t → nxtOf nodes2 j = nxtOf ns j := by
        intro j hj hjt
        rw [hn2, nxtOf_set (by rw [hlen1]; omega), nxtOf_set
          (by rw [hlen0]; omega), nxtOf_concat]
        simp [Ne.symm hj, hj, Ne.symm hjt]
      have hnxtT : nxtOf nodes2 t = some (some len) := by
        rw [hn2, nxtOf_set (by rw [hlen1]; omega), nxtOf_set
          (by rw [hlen0]; omega)]
        simp [Ne.symm htne]
      have hnxtA : nxtOf nodes2 len = some none := by
        rw [hn2, nxtOf_set (by rw [hlen1]; omega)]
        simp
      have hmemlt : ∀ b ∈ x :: xs, b < len := fun b hb => fwdOk_mem_lt hfwd hb
      refine ⟨⟨nodes2, d.head, some len⟩, ?_, ⟨⟨?_, ?_, ?_, ?_, ?_, ?_⟩, ?_⟩,
        by rw [hlen2], fun j => hval2 j⟩
      · rw [Deque.append, hh', ht']
        simp only [Option.isNone_some, Bool.false_and, Bool.if_false_left,
          Bool.not_false, hget0]
        rfl
      · -- head
        rw [hh']; rfl
      · -- tail: lastOr ((x :: xs) ++ [len]) none = some len
        show some len = lastOr ((x :: xs) ++ [len]) none
        rw [lastOr_append]
        rfl
      · -- nodup
        rw [List.nodup_append]
        exact ⟨hnd, List.nodup_singleton _,
          fun b hb hb' => by
            simp only [List.mem_singleton] at hb'
            exact absurd hb' (Nat.ne_of_lt (hmemlt b hb))⟩
      · -- fwdOk
        refine (fwdOk_append _ _ _ _).mpr ⟨?_, ⟨hnxtA, trivial⟩⟩
        have : headOr [len] (none : Option Nat) = some len := rfl
        rw [this]
        exact fwdOk_update_last hfwd htl hnd
          (fun b hb hbt => hnxt2 b (Nat.ne_of_lt (hmemlt b hb)) hbt) hnxtT
      · -- headPrevOk
        have hxne : x ≠ len := Nat.ne_of_lt (hmemlt x (by simp))
        rcases hhp with h1 | ⟨p, hp, hnp⟩
        · exact Or.inl (by rw [hprev2 x hxne]; exact h1)
        · refine Or.inr ⟨p, by rw [hprev2 x hxne]; exact hp, ?_⟩
          obtain ⟨xn, hxn⟩ := fwdOk_get?_isSome hfwd (List.mem_cons_self x xs)
          have hxp : xn.prev = some p := by
            unfold prevOf at hp
            rw [hxn] at hp
            simpa using hp
          have hplt : p < len := by
            have := (AllValid_get? hav hxn).1
            rw [hxp] at this
            exact this
          intro hmem
          rcases List.mem_cons.mp hmem with h | h
          · exact hnp (h ▸ List.mem_cons_self x xs)
          · rcases List.mem_append.mp h with h2 | h2
            · exact hnp (List.mem_cons_of_mem _ h2)
            · simp only [List.mem_singleton] at h2
              exact absurd h2 (Nat.ne_of_lt hplt)
      · -- bwd
        show bwdOk nodes2 (some x) (xs ++ [len])
        refine (bwdOk_append _ _ _ _).mpr ⟨?_, ?_⟩
        · exact bwdOk_frame
            (fun b hb => hprev2 b
              (Nat.ne_of_lt (hmemlt b (List.mem_cons_of_mem _ hb)))) hbwd
        · refine ⟨?_, trivial⟩
          rw [hprevA]
          have : lastOr xs (some x) = some t := htl
          rw [this]
      · -- AllValid
        intro n hn
        rw [hlen2]
        rcases List.mem_or_eq_of_mem_set hn with hn1 | hn1
        · rcases List.mem_or_eq_of_mem_set hn1 with hn2 | hn2
          · rcases List.mem_append.mp hn2 with h | h
            · have := hav n h
              exact ⟨OptLt_mono this.1 (by omega), OptLt_mono this.2 (by omega)⟩
            · simp only [List.mem_singleton] at h
              subst h
              exact ⟨trivial, trivial⟩
          · subst hn2
            have := AllValid_get? hav htn
            exact ⟨OptLt_mono this.1 (by omega), show len < len + 1 by omega⟩
        · subst hn1
          exact ⟨show t < len + 1 by omega, trivial⟩

end DequeOps

section DequeOps2

variable {κ : Type}

theorem lt_get?_isSome {β : Type} {ns : List β} {p : Nat}
    (hp : p < ns.length) : ∃ x, ns.get? p = some x := by
  cases h : ns.get? p with
  | none => exact absurd (List.get?_eq_none.mp h) (Nat.not_le_of_lt hp)
  | some x => exact ⟨x, rfl⟩

/-- `pop_left` on an empty well-formed deque returns the `None` node. -/
theorem Deque.pop_left_nil {d : Deque κ} (hc : ChainInv d []) :
    d.pop_left = some (none, d) := by
  obtain ⟨⟨hh, _, _, _, _, _⟩, _⟩ := hc
  rw [Deque.pop_left, show d.head = none from hh]

/-- `pop_left` on a nonempty well-formed deque pops the head address and
leaves the tail chain (with the new head's stale `prev`). -/
theorem Deque.pop_left_chain {d : Deque κ} {h0 : Nat} {t : List Nat}
    (hc : ChainInv d (h0 :: t)) :
    ∃ d', d.pop_left = some (some h0, d') ∧ ChainInv d' t
      ∧ d'.nodes = d.nodes := by
  obtain ⟨⟨hh, ht, hnd, hfwd, hhp, hbwd⟩, hav⟩ := hc
  have hh' : d.head = some h0 := hh
  obtain ⟨hn, hget⟩ := fwdOk_get?_isSome hfwd (List.mem_cons_self h0 t)
  have hnxt : hn.nxt = headOr t none := by
    have h1 := hfwd.1
    unfold nxtOf at h1
    rw [hget] at h1
    simpa using h1
  cases t with
  | nil =>
      refine ⟨⟨d.nodes, none, none⟩, ?_,
        ⟨⟨rfl, rfl, by simp, trivial, trivial, trivial⟩, hav⟩, rfl⟩
      have hnone : hn.nxt = none := hnxt
      have hget2 : d.nodes[h0]? = some hn := by
        rw [← List.get?_eq_getElem?]; exact hget
      simp [Deque.pop_left, hh', hget2, Deque.possibly_reset_pointers, hnone]
  | cons b t' =>
      have hnxt' : hn.nxt = some b := hnxt
      obtain ⟨tb, htb, htbm⟩ := lastOr_cons_isSome b t'
      have ht2 : d.tail = some tb := by rw [ht]; exact htb
      refine ⟨⟨d.nodes, some b, d.tail⟩, ?_,
        ⟨⟨rfl, by rw [ht2]; exact htb.symm, (List.nodup_cons.mp hnd).2,
          hfwd.2, ?_, hbwd.2⟩, hav⟩, rfl⟩
      · have hget2 : d.nodes[h0]? = some hn := by
          rw [← List.get?_eq_getElem?]; exact hget
        simp [Deque.pop_left, hh', hget2, hnxt',
          Deque.possibly_reset_pointers, ht2]
      · exact Or.inr ⟨h0, hbwd.1, (List.nodup_cons.mp hnd).1⟩

/-- `write_prev_nxt` (the `prev.nxt = nxt` write of `remove_node`)
succeeds on a valid reference and only changes that node's `nxt`. -/
theorem Deque.write_prev_nxt_total (ns : List (DequeNode κ))
    {prev : Option Nat} (nxt : Option Nat) (hp : OptLt prev ns.length) :
    ∃ ns1, Deque.write_prev_nxt ns prev nxt = some ns1
      ∧ ns1.length = ns.length
      ∧ (∀ j, valOf ns1 j = valOf ns j)
      ∧ (∀ j, prevOf ns1 j = prevOf ns j)
      ∧ (∀ p j, prev = some p →
          nxtOf ns1 j = if p = j then some nxt else nxtOf ns j)
      ∧ (prev = none → ns1 = ns)
      ∧ (OptLt nxt ns.length → AllValid ns → AllValid ns1) := by
  cases prev with
  | none =>
      refine ⟨ns, rfl, rfl, fun _ => rfl, fun _ => rfl, ?_, fun _ => rfl,
        fun _ h => h⟩
      intro p j h
      cases h
  | some p =>
      obtain ⟨pn, hpn⟩ := lt_get?_isSome (hp : p < ns.length)
      refine ⟨ns.set p { pn with nxt := nxt }, ?_, by simp, ?_, ?_, ?_, ?_, ?_⟩
      · rw [Deque.write_prev_nxt, hpn]
      · intro j
        rw [valOf_set hp]
        rcases eq_or_ne p j with h | h
        · subst h; unfold valOf; rw [hpn]; simp
        · simp [h]
      · intro j
        rw [prevOf_set hp]
        rcases eq_or_ne p j with h | h
        · subst h; unfold prevOf; rw [hpn]; simp
        · simp [h]
      · intro p' j hp'
        obtain rfl : p = p' := Option.some_inj.mp hp'
        rw [nxtOf_set hp]
      · intro h
        cases h
      · intro hnx hav
        intro nd hnd
        rw [List.length_set]
        rcases List.mem_or_eq_of_mem_set hnd with h | h
        · exact hav nd h
        · subst h
          exact ⟨(hav pn (List.get?_mem hpn)).1, hnx⟩

/-- `write_nxt_prev` (the `nxt.prev = prev` write of `remove_node`)
succeeds on a valid reference and only changes that node's `prev`. -/
theorem Deque.write_nxt_prev_total (ns : List (DequeNode κ))
    {nxt : Option Nat} (prev : Option Nat) (hb : OptLt nxt ns.length) :
    ∃ ns2, Deque.write_nxt_prev ns prev nxt = some ns2
      ∧ ns2.length = ns.length
      ∧ (∀ j, valOf ns2 j = valOf ns j)
      ∧ (∀ j, nxtOf ns2 j = nxtOf ns j)
      ∧ (∀ b j, nxt = some b →
          prevOf ns2 j = if b = j then some prev else prevOf ns j)
      ∧ (nxt = none → ns2 = ns)
      ∧ (OptLt prev ns.length → AllValid ns → AllValid ns2) := by
  cases nxt with
  | none =>
      refine ⟨ns, rfl, rfl, fun _ => rfl, fun _ => rfl, ?_, fun _ => rfl,
        fun _ h => h⟩
      intro b j h
      cases h
  | some b =>
      obtain ⟨bn, hbn⟩ := lt_get?_isSome (hb : b < ns.length)
      refine ⟨ns.set b { bn with prev := prev }, ?_, by simp, ?_, ?_, ?_, ?_, ?_⟩
      · rw [Deque.write_nxt_prev, hbn]
      · intro j
        rw [valOf_set hb]
        rcases eq_or_ne b j with h | h
        · subst h; unfold valOf; rw [hbn]; simp
        · simp [h]
      · intro j
        rw [nxtOf_set hb]
        rcases eq_or_ne b j with h | h
        · subst h; unfold nxtOf; rw [hbn]; simp
        · simp [h]
      · intro b' j hb'
        obtain rfl : b = b' := Option.some_inj.mp hb'
        rw [prevOf_set hb]
      · intro h
        cases h
      · intro hpv hav
        intro nd hnd
        rw [List.length_set]
        rcases List.mem_or_eq_of_mem_set hnd with h | h
        · exact hav nd h
        · subst h
          exact ⟨hpv, (hav bn (List.get?_mem hbn)).2⟩

theorem Deque.reset_nodes {d : Deque κ} :
    (Deque.possibly_reset_pointers d).nodes = d.nodes := by
  unfold Deque.possibly_reset_pointers
  split <;> rfl

end DequeOps2

section DequeOps3

variable {κ : Type}

/-- `remove_node` on an address of the chain succeeds, removes exactly
that address from the chain and preserves all values. -/
theorem Deque.remove_node_chain {d : Deque κ} {l : List Nat} {a : Nat}
    (hc : ChainInv d l) (hm : a ∈ l) :
    ∃ d', d.remove_node a = some d' ∧ ChainInv d' (l.erase a)
      ∧ d'.nodes.length = d.nodes.length
      ∧ (∀ j, valOf d'.nodes j = valOf d.nodes j) := by
  obtain ⟨xs, ys, rfl⟩ := List.append_of_mem hm
  obtain ⟨⟨hh, ht, hnd, hfwd, hhp, hbwd⟩, hav⟩ := hc
  have hnd3 := List.nodup_append.mp hnd
  have hax : a ∉ xs := fun h => hnd3.2.2 h (List.mem_cons_self a ys)
  have hay : a ∉ ys := (List.nodup_cons.mp hnd3.2.1).1
  have herase : (xs ++ a :: ys).erase a = xs ++ ys := by
    rw [List.erase_append_right _ hax, List.erase_cons_head]
  have hfd := (fwdOk_append d.nodes xs (a :: ys) none).mp hfwd
  have hfx : fwdOk d.nodes xs (some a) := hfd.1
  have hfa : nxtOf d.nodes a = some (headOr ys none) := hfd.2.1
  have hfy : fwdOk d.nodes ys none := hfd.2.2
  obtain ⟨n, hna⟩ := fwdOk_get?_isSome hfd.2 (List.mem_cons_self a ys)
  have hanxt : n.nxt = headOr ys none := by
    unfold nxtOf at hfa; rw [hna] at hfa; simpa using hfa
  have havn := AllValid_get? hav hna
  obtain ⟨ns1, hw1, hl1, hv1, hp1, hx1, hx1n, hav1f⟩ :=
    Deque.write_prev_nxt_total d.nodes n.nxt havn.1
  have hav1 : AllValid ns1 := hav1f havn.2 hav
  obtain ⟨ns2, hw2, hl2, hv2, hx2, hp2, hp2n, hav2f⟩ :=
    Deque.write_nxt_prev_total ns1 n.prev (by rw [hl1]; exact havn.2)
  have hav2 : AllValid ns2 := hav2f (by rw [hl1]; exact havn.1) hav1
  have hlen2 : ns2.length = d.nodes.length := hl2.trans hl1
  have hval : ∀ j, valOf ns2 j = valOf d.nodes j :=
    fun j => (hv2 j).trans (hv1 j)
  -- nxt links after the writes
  have hnxt_pres : ∀ j, (∀ p, n.prev = some p → p ≠ j) →
      nxtOf ns2 j = nxtOf d.nodes j := by
    intro j hj
    rw [hx2 j]
    cases hp : n.prev with
    | none => rw [hx1n hp]
    | some p => rw [hx1 p j hp, if_neg (hj p hp)]
  have hnxt_at : ∀ p, n.prev = some p → nxtOf ns2 p = some n.nxt := by
    intro p hp
    rw [hx2 p, hx1 p p hp, if_pos rfl]
  -- prev links after the writes
  have hprev_pres : ∀ j, (∀ b, n.nxt = some b → b ≠ j) →
      prevOf ns2 j = prevOf d.nodes j := by
    intro j hj
    cases hb : n.nxt with
    | none => rw [hp2n hb]; exact hp1 j
    | some b => rw [hp2 b j hb, if_neg (hj b hb)]; exact hp1 j
  have hprev_at : ∀ b, n.nxt = some b → prevOf ns2 b = some n.prev := by
    intro b hb
    rw [hp2 b b hb, if_pos rfl]
  have hmlt : ∀ b ∈ xs ++ a :: ys, b < d.nodes.length :=
    fun b hb => fwdOk_mem_lt hfwd hb
  obtain ⟨hd0, hds⟩ : ∃ h0, d.head = some h0 := by
    cases xs with
    | nil => exact ⟨a, hh⟩
    | cons x xs' => exact ⟨x, hh⟩
  obtain ⟨t0, hts⟩ : ∃ t0, d.tail = some t0 := by
    cases xs with
    | nil =>
        obtain ⟨tb, htb, _⟩ := lastOr_cons_isSome a ys
        exact ⟨tb, by rw [ht]; exact htb⟩
    | cons x xs' =>
        obtain ⟨tb, htb, _⟩ := lastOr_cons_isSome x (xs' ++ a :: ys)
        exact ⟨tb, by rw [ht]; exact htb⟩
  have hrun : d.remove_node a = some (Deque.possibly_reset_pointers
      ⟨ns2, (if d.head = some a then n.nxt else d.head),
        (if d.tail = some a then n.prev else d.tail)⟩) := by
    have hg : (d.head.isNone || d.tail.isNone) = false := by
      rw [hds, hts]; rfl
    rw [Deque.remove_node]
    simp only [hg, Bool.false_eq_true, if_false, hna]
    simp only [hw1, hw2, bind, Option.some_bind]
  refine ⟨_, hrun, ?_, ?_, ?_⟩
  · rw [herase]
    cases xs with
    | nil =>
        have hha : d.head = some a := hh
        have hprev0 : n.prev = none ∨ ∃ p, n.prev = some p ∧ p ∉ a :: ys := by
          rcases hhp with h1 | ⟨p, hp, hnp⟩
          · refine Or.inl ?_
            unfold prevOf at h1
            rw [hna] at h1
            simpa using h1
          · refine Or.inr ⟨p, ?_, hnp⟩
            unfold prevOf at hp
            rw [hna] at hp
            simpa using hp
        cases ys with
        | nil =>
            have hnone : n.nxt = none := hanxt
            have hstate : Deque.possibly_reset_pointers
                (⟨ns2, (if d.head = some a then n.nxt else d.head),
                  (if d.tail = some a then n.prev else d.tail)⟩ : Deque κ) =
                ⟨ns2, none, none⟩ := by
              rw [if_pos hha, hnone]
              simp [Deque.possibly_reset_pointers]
            rw [hstate]
            exact ⟨⟨rfl, rfl, by simp, trivial, trivial, trivial⟩, hav2⟩
        | cons b ys' =>
            have hbnxt : n.nxt = some b := hanxt
            obtain ⟨tb, htb, htbm⟩ := lastOr_cons_isSome b ys'
            have htb2 : d.tail = some tb := by rw [ht]; exact htb
            have htba : tb ≠ a := fun h => hay (h ▸ htbm)
            have hndy := List.nodup_cons.mp (List.nodup_cons.mp hnd3.2.1).2
            have hstate : Deque.possibly_reset_pointers
                (⟨ns2, (if d.head = some a then n.nxt else d.head),
                  (if d.tail = some a then n.prev else d.tail)⟩ : Deque κ) =
                ⟨ns2, some b, some tb⟩ := by
              rw [if_pos hha, hbnxt, htb2, if_neg (by simp [htba])]
              simp [Deque.possibly_reset_pointers]
            rw [hstate]
            refine ⟨⟨rfl, htb.symm, (List.nodup_cons.mp hnd3.2.1).2,
              ?_, ?_, ?_⟩, hav2⟩
            · refine fwdOk_frame ?_ hfy
              intro c hc
              refine hnxt_pres c ?_
              intro p hp
              rcases hprev0 with h0 | ⟨p', hp', hnp'⟩
              · rw [h0] at hp; cases hp
              · rw [hp'] at hp
                obtain rfl : p' = p := Option.some_inj.mp hp
                intro h
                subst h
                exact hnp' (List.mem_cons_of_mem _ hc)
            · rcases hprev0 with h0 | ⟨p', hp', hnp'⟩
              · exact Or.inl (by rw [hprev_at b hbnxt, h0])
              · refine Or.inr ⟨p', by rw [hprev_at b hbnxt, hp'], ?_⟩
                intro hmem
                exact hnp' (List.mem_cons_of_mem _ hmem)
            · show bwdOk ns2 (some b) ys'
              refine bwdOk_frame ?_ (hbwd.2 : bwdOk d.nodes (some b) ys')
              intro c hc
              refine hprev_pres c ?_
              intro b' hb' hbc
              rw [hbnxt] at hb'
              rw [← Option.some_inj.mp hb'] at hbc
              exact hndy.1 (hbc ▸ hc)
    | cons x xs' =>
        have hhx : d.head = some x := hh
        have hxa : x ≠ a := fun h => hax (h ▸ List.mem_cons_self x xs')
        have hbwx : bwdOk d.nodes (some x) (xs' ++ a :: ys) := hbwd
        have hsplit := (bwdOk_append d.nodes xs' (a :: ys) (some x)).mp hbwx
        have hbw1 : bwdOk d.nodes (some x) xs' := hsplit.1
        obtain ⟨tx, htx, htxm⟩ := lastOr_cons_isSome x xs'
        have hpa2 : n.prev = some tx := by
          have h1 : n.prev = lastOr xs' (some x) := by
            have hpa := hsplit.2.1
            unfold prevOf at hpa
            rw [hna] at hpa
            simpa using hpa
          rw [h1]
          exact htx
        have htxa : tx ≠ a := fun h => hax (h ▸ htxm)
        have hndxs := hnd3.1
        have hfx' : fwdOk d.nodes (x :: xs') (some a) := hfx
        have hframe_xs : ∀ j ∈ x :: xs', j ≠ tx →
            nxtOf ns2 j = nxtOf d.nodes j := by
          intro j _ hjt
          refine hnxt_pres j ?_
          intro p hp
          rw [hpa2] at hp
          rw [← Option.some_inj.mp hp]
          exact fun h => hjt h.symm
        have hcond1 : (if d.head = some a then n.nxt else d.head) =
            some x := by
          rw [hhx, if_neg (by simp [hxa])]
        cases ys with
        | nil =>
            rw [List.append_nil]
            have hnone : n.nxt = none := hanxt
            have hta : d.tail = some a := by
              rw [ht, lastOr_append]
              rfl
            have hstate : Deque.possibly_reset_pointers
                (⟨ns2, (if d.head = some a then n.nxt else d.head),
                  (if d.tail = some a then n.prev else d.tail)⟩ : Deque κ) =
                ⟨ns2, some x, some tx⟩ := by
              rw [hcond1, if_pos hta, hpa2]
              simp [Deque.possibly_reset_pointers]
            rw [hstate]
            refine ⟨⟨rfl, htx.symm, hndxs, ?_, ?_, ?_⟩, hav2⟩
            · refine fwdOk_update_last hfx' htx hndxs hframe_xs ?_
              rw [hnxt_at tx hpa2, hnone]
            · have hpp : ∀ j, prevOf ns2 j = prevOf d.nodes j := by
                intro j
                refine hprev_pres j ?_
                intro b' hb'
                rw [hnone] at hb'
                cases hb'
              rcases hhp with h1 | ⟨p, hp, hnp⟩
              · exact Or.inl (by rw [hpp x]; exact h1)
              · refine Or.inr ⟨p, by rw [hpp x]; exact hp, ?_⟩
                intro hmem
                exact hnp (by
                  rcases List.mem_cons.mp hmem with h | h
                  · exact h ▸ List.mem_cons_self x _
                  · exact List.mem_cons_of_mem _
                      (List.mem_append_left _ h))
            · show bwdOk ns2 (some x) xs'
              refine bwdOk_frame ?_ hbw1
              intro c _
              refine hprev_pres c ?_
              intro b' hb'
              rw [hnone] at hb'
              cases hb'
        | cons b ys' =>
            have hbnxt : n.nxt = some b := hanxt
            obtain ⟨tb, htb, htbm⟩ := lastOr_cons_isSome b ys'
            have htb2 : d.tail = some tb := by
              rw [ht, lastOr_append]
              exact htb
            have htba : tb ≠ a := fun h => hay (h ▸ htbm)
            have hdisj : ∀ u ∈ x :: xs', ∀ w ∈ b :: ys', u ≠ w := by
              intro u hu w hw
              exact fun h => hnd3.2.2 hu
                (List.mem_cons_of_mem _ (h ▸ hw))
            have hstate : Deque.possibly_reset_pointers
                (⟨ns2, (if d.head = some a then n.nxt else d.head),
                  (if d.tail = some a then n.prev else d.tail)⟩ : Deque κ) =
                ⟨ns2, some x, some tb⟩ := by
              rw [hcond1, htb2, if_neg (by simp [htba])]
              simp [Deque.possibly_reset_pointers]
            rw [hstate]
            have hndnew : ((x :: xs') ++ b :: ys').Nodup :=
              List.Nodup.sublist
                (List.Sublist.append_left (List.sublist_cons_self a _) _) hnd
            refine ⟨⟨rfl, ?_, hndnew, ?_, ?_, ?_⟩, hav2⟩
            · show some tb = lastOr ((x :: xs') ++ b :: ys') none
              rw [lastOr_append]
              exact htb.symm
            · refine (fwdOk_append _ _ _ _).mpr ⟨?_, ?_⟩
              · show fwdOk ns2 (x :: xs') (some b)
                refine fwdOk_update_last hfx' htx hndxs hframe_xs ?_
                rw [hnxt_at tx hpa2, hbnxt]
              · refine fwdOk_frame ?_ hfy
                intro c hc
                refine hnxt_pres c ?_
                intro p hp
                rw [hpa2] at hp
                rw [← Option.some_inj.mp hp]
                exact fun h => hdisj tx htxm c hc h
            · rcases hhp with h1 | ⟨p, hp, hnp⟩
              · refine Or.inl ?_
                rw [hprev_pres x
                  (fun b' hb' => by
                    rw [hbnxt] at hb'
                    rw [← Option.some_inj.mp hb']
                    exact fun h => hdisj x (List.mem_cons_self x xs') b
                      (List.mem_cons_self b ys') h.symm)]
                exact h1
              · refine Or.inr ⟨p, ?_, ?_⟩
                · rw [hprev_pres x
                    (fun b' hb' => by
                      rw [hbnxt] at hb'
                      rw [← Option.some_inj.mp hb']
                      exact fun h => hdisj x (List.mem_cons_self x xs') b
                        (List.mem_cons_self b ys') h.symm)]
                  exact hp
                · intro hmem
                  refine hnp ?_
                  rcases List.mem_cons.mp hmem with h | h
                  · exact h ▸ List.mem_cons_self x _
                  · rcases List.mem_append.mp h with h2 | h2
                    · exact List.mem_cons_of_mem _ (List.mem_append_left _ h2)
                    · exact List.mem_cons_of_mem _ (List.mem_append_right _
                        (List.mem_cons_of_mem _ h2))
            · show bwdOk ns2 (some x) (xs' ++ b :: ys')
              refine (bwdOk_append _ _ _ _).mpr ⟨?_, ?_⟩
              · refine bwdOk_frame ?_ hbw1
                intro c hc
                refine hprev_pres c ?_
                intro b' hb'
                rw [hbnxt] at hb'
                rw [← Option.some_inj.mp hb']
                exact fun h => hdisj c (List.mem_cons_of_mem _ hc) b
                  (List.mem_cons_self b ys') h.symm
              · refine ⟨?_, ?_⟩
                · rw [hprev_at b hbnxt, hpa2]
                  have : lastOr xs' (some x) = some tx := htx
                  rw [this]
                · show bwdOk ns2 (some b) ys'
                  have hys' : bwdOk d.nodes (some b) ys' := hsplit.2.2.2
                  refine bwdOk_frame ?_ hys'
                  intro c hc
                  refine hprev_pres c ?_
                  intro b' hb'
                  rw [hbnxt] at hb'
                  rw [← Option.some_inj.mp hb']
                  have hndb := List.nodup_cons.mp
                    (List.nodup_cons.mp hnd3.2.1).2
                  exact fun h => hndb.1 (h ▸ hc)
  · rw [Deque.reset_nodes]
    simpa using hlen2
  · intro j
    rw [Deque.reset_nodes]
    exact hval j

end DequeOps3

/-! ### Python-dict (association list) lemmas -/

section DictLemmas

variable {κ β : Type} [DecidableEq κ]

theorem dictLookup_insert_self (l : List (κ × β)) (k : κ) (b : β) :
    dictLookup (dictInsert l k b) k = some b := by
  induction l with
  | nil => simp [dictInsert, dictLookup]
  | cons p t ih =>
      obtain ⟨k', b'⟩ := p
      by_cases h : k' = k
      · subst h; simp [dictInsert, dictLookup]
      · simp [dictInsert, dictLookup, h, ih]

theorem dictLookup_insert_ne (l : List (κ × β)) {k k' : κ} (b : β)
    (h : k' ≠ k) : dictLookup (dictInsert l k b) k' = dictLookup l k' := by
  induction l with
  | nil => simp [dictInsert, dictLookup, Ne.symm h]
  | cons p t ih =>
      obtain ⟨k0, b0⟩ := p
      by_cases h0 : k0 = k
      · subst h0
        simp [dictInsert, dictLookup, Ne.symm h]
      · simp only [dictInsert, if_neg h0, dictLookup]
        split
        · rfl
        · exact ih

theorem dictInsert_absent {l : List (κ × β)} {k : κ}
    (h : dictLookup l k = none) (b : β) :
    dictInsert l k b = l ++ [(k, b)] := by
  induction l with
  | nil => rfl
  | cons p t ih =>
      obtain ⟨k0, b0⟩ := p
      simp only [dictLookup] at h
      by_cases h0 : k0 = k
      · rw [if_pos h0] at h; cases h
      · rw [if_neg h0] at h
        simp [dictInsert, h0, ih h]

theorem mem_of_dictLookup {l : List (κ × β)} {k : κ} {b : β}
    (h : dictLookup l k = some b) : (k, b) ∈ l := by
  induction l with
  | nil => cases h
  | cons p t ih =>
      obtain ⟨k0, b0⟩ := p
      simp only [dictLookup] at h
      by_cases h0 : k0 = k
      · rw [if_pos h0] at h
        subst h0
        simp [Option.some_inj.mp h]
      · rw [if_neg h0] at h
        exact List.mem_cons_of_mem _ (ih h)

theorem dictLookup_of_mem {l : List (κ × β)} {k : κ} {b : β}
    (hm : (k, b) ∈ l) (hnd : (l.map Prod.fst).Nodup) :
    dictLookup l k = some b := by
  induction l with
  | nil => cases hm
  | cons p t ih =>
      obtain ⟨k0, b0⟩ := p
      simp only [List.map_cons, List.nodup_cons] at hnd
      rcases List.mem_cons.mp hm with h | h
      · obtain ⟨h1, h2⟩ := Prod.mk.injEq .. ▸ h.symm
        simp [dictLookup, h1.symm, h2]
      · have hk : k0 ≠ k := by
          intro hk
          subst hk
          exact hnd.1 (List.mem_map.mpr ⟨(k0, b), h, rfl⟩)
        simp only [dictLookup, if_neg hk]
        exact ih h hnd.2

theorem dictLookup_eq_none_iff {l : List (κ × β)} {k : κ} :
    dictLookup l k = none ↔ k ∉ l.map Prod.fst := by
  induction l with
  | nil => simp [dictLookup]
  | cons p t ih =>
      obtain ⟨k0, b0⟩ := p
      by_cases h0 : k0 = k
      · subst h0; simp [dictLookup]
      · simp [dictLookup, h0, ih, Ne.symm h0]

theorem dictInsert_present_decomp {l : List (κ × β)} {k : κ} {b0 : β}
    (hl : dictLookup l k = some b0) (b : β) :
    ∃ l1 l2, l = l1 ++ (k, b0) :: l2 ∧ dictInsert l k b = l1 ++ (k, b) :: l2
      ∧ k ∉ l1.map Prod.fst := by
  induction l with
  | nil => cases hl
  | cons p t ih =>
      obtain ⟨k0, b0'⟩ := p
      simp only [dictLookup] at hl
      by_cases h0 : k0 = k
      · subst h0
        rw [if_pos rfl] at hl
        refine ⟨[], t, ?_, ?_, by simp⟩
        · simp [Option.some_inj.mp hl]
        · simp [dictInsert]
      · rw [if_neg h0] at hl
        obtain ⟨l1, l2, he, hi, hn⟩ := ih hl
        refine ⟨(k0, b0') :: l1, l2, by simp [he], ?_, ?_⟩
        · simp [dictInsert, h0, hi]
        · simp only [List.map_cons, List.mem_cons]
          rintro (h | h)
          · exact h0 h.symm
          · exact hn h

theorem dictDelete_present_decomp {l : List (κ × β)} {k : κ} {b0 : β}
    (hl : dictLookup l k = some b0) :
    ∃ l1 l2, l = l1 ++ (k, b0) :: l2 ∧ dictDelete l k = l1 ++ l2
      ∧ k ∉ l1.map Prod.fst := by
  induction l with
  | nil => cases hl
  | cons p t ih =>
      obtain ⟨k0, b0'⟩ := p
      simp only [dictLookup] at hl
      by_cases h0 : k0 = k
      · subst h0
        rw [if_pos rfl] at hl
        refine ⟨[], t, by simp [Option.some_inj.mp hl], by simp [dictDelete],
          by simp⟩
      · rw [if_neg h0] at hl
        obtain ⟨l1, l2, he, hd, hn⟩ := ih hl
        refine ⟨(k0, b0') :: l1, l2, by simp [he], by simp [dictDelete, h0, hd],
          ?_⟩
        simp only [List.map_cons, List.mem_cons]
        rintro (h | h)
        · exact h0 h.symm
        · exact hn h

theorem dictLookup_delete_ne (l : List (κ × β)) {k k' : κ} (h : k' ≠ k) :
    dictLookup (dictDelete l k) k' = dictLookup l k' := by
  induction l with
  | nil => rfl
  | cons p t ih =>
      obtain ⟨k0, b0⟩ := p
      by_cases h0 : k0 = k
      · subst h0
        simp [dictDelete, dictLookup, Ne.symm h]
      · simp only [dictDelete, if_neg h0, dictLookup]
        split
        · rfl
        · exact ih

theorem dictLookup_delete_self {l : List (κ × β)} {k : κ}
    (hnd : (l.map Prod.fst).Nodup) :
    dictLookup (dictDelete l k) k = none := by
  induction l with
  | nil => rfl
  | cons p t ih =>
      obtain ⟨k0, b0⟩ := p
      simp only [List.map_cons, List.nodup_cons] at hnd
      by_cases h0 : k0 = k
      · subst h0
        simp only [dictDelete, if_pos rfl]
        rw [dictLookup_eq_none_iff]
        exact hnd.1
      · simp only [dictDelete, if_neg h0, dictLookup, if_neg h0]
        exact ih hnd.2

end DictLemmas

/-! ### Slab invariant lemmas -/

namespace Slab

variable {κ α : Type} [DecidableEq κ]

theorem cellOk_read {s : List (Option (CacheEntry α))} {n i : Nat}
    (h : cellOk s n i) :
    ∃ e, sRead s i = some e ∧ OptLt e.prev n ∧ OptLt e.nxt n := by
  unfold cellOk at h
  cases he : sRead s i with
  | none => rw [he] at h; cases h
  | some e => rw [he] at h; exact ⟨e, rfl, h⟩

theorem sWrite_total (s : List (Option (CacheEntry α))) {i : Nat}
    (e : CacheEntry α) (hi : i < s.length) :
    ∃ s', sWrite s i e = some s' := by
  refine ⟨s.set i (some e), ?_⟩
  rw [sWrite, if_pos hi]

theorem cellOk_sWrite_all {s s' : List (Option (CacheEntry α))} {i n : Nat}
    {e : CacheEntry α} (hw : sWrite s i e = some s')
    (he : OptLt e.prev n ∧ OptLt e.nxt n)
    (hall : ∀ j, j < n → j ≠ i → cellOk s n j) :
    ∀ j, j < n → cellOk s' n j := by
  intro j hj
  by_cases hji : j = i
  · subst hji
    unfold cellOk
    rw [sRead_sWrite_self hw]
    exact he
  · unfold cellOk
    rw [sRead_sWrite_ne hw hji]
    exact hall j hj hji

theorem fix_prev_total (slab : List (Option (CacheEntry α)))
    (prev nxt : Option Nat) {n : Nat} (hp : OptLt prev n)
    (hn : n ≤ slab.length) (hall : ∀ j, j < n → cellOk slab n j) :
    ∃ slab', fix_prev slab prev nxt = some slab' := by
  cases prev with
  | none => exact ⟨slab, rfl⟩
  | some p =>
      obtain ⟨op, hop, _⟩ := cellOk_read (hall p hp)
      obtain ⟨s', hs'⟩ := sWrite_total slab
        ⟨op.value, op.prev, nxt⟩ (Nat.lt_of_lt_of_le hp hn)
      exact ⟨s', by rw [fix_prev]; rw [hop]; simpa [bind] using hs'⟩

theorem fix_prev_cellOk {slab slab' : List (Option (CacheEntry α))}
    {prev nxt : Option Nat} {n : Nat}
    (h : fix_prev slab prev nxt = some slab') (hp : OptLt prev n)
    (hn : OptLt nxt n) (hall : ∀ j, j < n → cellOk slab n j) :
    ∀ j, j < n → cellOk slab' n j := by
  unfold fix_prev at h
  cases prev with
  | none => cases h; exact hall
  | some p =>
      simp only [bind, Option.bind_eq_some] at h
      obtain ⟨op, hop, hw⟩ := h
      have hcell := cellOk_read (hall p hp)
      obtain ⟨e', he', hprev', _⟩ := hcell
      rw [hop] at he'
      obtain rfl : op = e' := Option.some_inj.mp he'.symm |>.symm
      exact cellOk_sWrite_all hw ⟨hprev', hn⟩ fun j hj _ => hall j hj

theorem fix_nxt_total (slab : List (Option (CacheEntry α)))
    (prev nxt : Option Nat) {n : Nat} (hnx : OptLt nxt n)
    (hn : n ≤ slab.length) (hall : ∀ j, j < n → cellOk slab n j) :
    ∃ slab', fix_nxt slab prev nxt = some slab' := by
  cases nxt with
  | none => exact ⟨slab, rfl⟩
  | some nx =>
      obtain ⟨onx, honx, _⟩ := cellOk_read (hall nx hnx)
      obtain ⟨s', hs'⟩ := sWrite_total slab
        ⟨onx.value, prev, onx.nxt⟩ (Nat.lt_of_lt_of_le hnx hn)
      exact ⟨s', by rw [fix_nxt]; rw [honx]; simpa [bind] using hs'⟩

theorem fix_nxt_cellOk {slab slab' : List (Option (CacheEntry α))}
    {prev nxt : Option Nat} {n : Nat}
    (h : fix_nxt slab prev nxt = some slab') (hp : OptLt prev n)
    (hnx : OptLt nxt n) (hall : ∀ j, j < n → cellOk slab n j) :
    ∀ j, j < n → cellOk slab' n j := by
  unfold fix_nxt at h
  cases nxt with
  | none => cases h; exact hall
  | some nx =>
      simp only [bind, Option.bind_eq_some] at h
      obtain ⟨onx, honx, hw⟩ := h
      obtain ⟨e', he', _, hnxt'⟩ := cellOk_read (hall nx hnx)
      rw [honx] at he'
      obtain rfl : onx = e' := Option.some_inj.mp he'.symm |>.symm
      exact cellOk_sWrite_all hw ⟨hp, hnxt'⟩ fun j hj _ => hall j hj

theorem fix_tail_total {c : LRUCache κ α}
    {slab3 : List (Option (CacheEntry α))} (i : Nat) {n t : Nat}
    (ht : c.tail = some t) (htn : t < n) (hn : n ≤ slab3.length)
    (hall : ∀ j, j < n → cellOk slab3 n j) :
    ∃ c1, fix_tail c slab3 i = some c1 := by
  unfold fix_tail
  by_cases hit : some i ≠ c.tail
  · rw [if_pos hit, ht]
    obtain ⟨pt, hpt, _⟩ := cellOk_read (hall t htn)
    obtain ⟨s4, hs4⟩ := sWrite_total slab3
      ⟨pt.value, pt.prev, some i⟩ (Nat.lt_of_lt_of_le htn hn)
    refine ⟨({ c with slab := s4, tail := some i } : LRUCache κ α), ?_⟩
    simp only [bind, Option.some_bind, hpt, hs4]
  · rw [if_neg hit]
    exact ⟨_, rfl⟩

theorem fix_tail_cellOk {c : LRUCache κ α}
    {slab3 : List (Option (CacheEntry α))} {i n : Nat} {c1 : LRUCache κ α}
    (h : fix_tail c slab3 i = some c1) (htl : OptLt c.tail n) (hi : i < n)
    (hall : ∀ j, j < n → cellOk slab3 n j) :
    ∀ j, j < n → cellOk c1.slab n j := by
  unfold fix_tail at h
  split at h
  · simp only [bind, Option.bind_eq_some, Option.some_inj] at h
    obtain ⟨t, ht, pt, hpt, s4, hs4, hc⟩ := h
    subst hc
    have htn : t < n := by rw [ht] at htl; exact htl
    obtain ⟨e', he', hprev', _⟩ := cellOk_read (hall t htn)
    rw [hpt] at he'
    obtain rfl : pt = e' := Option.some_inj.mp he'.symm |>.symm
    exact cellOk_sWrite_all hs4 ⟨hprev', hi⟩ fun j hj _ => hall j hj
  · cases h
    exact hall

end Slab

theorem dictLookup_snd_ne {κ β : Type} [DecidableEq κ] {l : List (κ × β)}
    (hnd : (l.map Prod.snd).Nodup) {k1 k2 : κ} {b1 b2 : β} (hk : k1 ≠ k2)
    (hl1 : dictLookup l k1 = some b1) (hl2 : dictLookup l k2 = some b2) :
    b1 ≠ b2 := by
  induction l with
  | nil => cases hl1
  | cons p t ih =>
      obtain ⟨k0, b0⟩ := p
      simp only [dictLookup] at hl1 hl2
      simp only [List.map_cons, List.nodup_cons] at hnd
      by_cases e1 : k0 = k1
      · rw [if_pos e1] at hl1
        have hb : b0 = b1 := Option.some_inj.mp hl1
        have e2 : k0 ≠ k2 := fun h => hk (by rw [← e1, h])
        rw [if_neg e2] at hl2
        have hmem : b2 ∈ t.map Prod.snd :=
          List.mem_map.mpr ⟨(k2, b2), mem_of_dictLookup hl2, rfl⟩
        intro hbe
        exact hnd.1 (by rw [hb, hbe]; exact hmem)
      · rw [if_neg e1] at hl1
        by_cases e2 : k0 = k2
        · rw [if_pos e2] at hl2
          have hb : b0 = b2 := Option.some_inj.mp hl2
          have hmem : b1 ∈ t.map Prod.snd :=
            List.mem_map.mpr ⟨(k1, b1), mem_of_dictLookup hl1, rfl⟩
          intro hbe
          exact hnd.1 (by rw [hb, ← hbe]; exact hmem)
        · rw [if_neg e2] at hl2
          exact ih hnd.2 hl1 hl2

namespace Slab

variable {κ α : Type} [DecidableEq κ]

theorem cellOk_mono {s : List (Option (CacheEntry α))} {n m i : Nat}
    (h : cellOk s n i) (hm : n ≤ m) : cellOk s m i := by
  unfold cellOk at h ⊢
  cases he : sRead s i with
  | none => rw [he] at h; cases h
  | some e =>
      rw [he] at h
      exact ⟨OptLt_mono h.1 hm, OptLt_mono h.2 hm⟩

theorem link_old_tail_cellOk {s s' : List (Option (CacheEntry α))}
    {tl : Option Nat} {idx n : Nat}
    (h : link_old_tail s tl idx = some s') (htl : OptLt tl n) (hidx : idx < n)
    (hall : ∀ j, j < n → cellOk s n j) : ∀ j, j < n → cellOk s' n j := by
  unfold link_old_tail at h
  cases tl with
  | none => cases h; exact hall
  | some t =>
      simp only [bind, Option.bind_eq_some] at h
      obtain ⟨pt, hpt, hw⟩ := h
      obtain ⟨e', he', hprev', _⟩ := cellOk_read (hall t htl)
      rw [hpt] at he'
      obtain rfl : pt = e' := Option.some_inj.mp he'.symm |>.symm
      exact cellOk_sWrite_all hw ⟨hprev', hidx⟩ fun j hj _ => hall j hj

theorem tail_some_of_pos {c : LRUCache κ α} (h7 : tailOk c)
    (hpos : 0 < c.size) : ∃ t, c.tail = some t ∧ t < c.size := by
  unfold tailOk at h7
  cases hct : c.tail with
  | none => rw [hct] at h7; simp at h7; omega
  | some t => rw [hct] at h7; exact ⟨t, rfl, h7⟩

theorem promote_total {c : LRUCache κ α} (hinv : SInv c) {i : Nat}
    (hi : i < c.size) : ∃ c', c.promote_to_mru i = some c' := by
  obtain ⟨h1, h2, h3, h4, h5, h6, h7⟩ := hinv
  obtain ⟨ce, hce, hcep, hcen⟩ := cellOk_read (h6 i hi)
  have hpos : 0 < c.size := Nat.lt_of_le_of_lt (Nat.zero_le i) hi
  obtain ⟨t, ht, htn⟩ := tail_some_of_pos h7 hpos
  have hw1v : OptLt c.tail c.size := by rw [ht]; exact htn
  obtain ⟨s1, hs1⟩ := sWrite_total c.slab ⟨ce.value, c.tail, none⟩
    (Nat.lt_of_lt_of_le hi h5)
  have hall1 : ∀ j, j < c.size → cellOk s1 c.size j :=
    cellOk_sWrite_all hs1 ⟨hw1v, trivial⟩ fun j hj _ => h6 j hj
  have hl1 : s1.length = c.slab.length := sWrite_length hs1
  obtain ⟨s2, hs2⟩ := fix_prev_total s1 ce.prev ce.nxt hcep
    (by rw [hl1]; exact h5) hall1
  have hall2 := fix_prev_cellOk hs2 hcep hcen hall1
  have hl2 : s2.length = s1.length := (fix_prev_facts hs2).2
  obtain ⟨s3, hs3⟩ := fix_nxt_total s2 ce.prev ce.nxt hcen
    (by rw [hl2, hl1]; exact h5) hall2
  have hall3 := fix_nxt_cellOk hs3 hcep hcen hall2
  have hl3 : s3.length = s2.length := (fix_nxt_facts hs3).2
  obtain ⟨c1, hc1⟩ := fix_tail_total i ht htn
    (by rw [hl3, hl2, hl1]; exact h5) hall3
  refine ⟨{ c1 with head := if some i = c.head then ce.nxt else c.head }, ?_⟩
  rw [LRUCache.promote_to_mru]
  simp only [hce, hs1, hs2, hs3, hc1, bind, Option.some_bind]

theorem promote_SInv {c c' : LRUCache κ α} (hinv : SInv c) {i : Nat}
    (hi : i < c.size) (h : c.promote_to_mru i = some c') : SInv c' := by
  have pf := promote_facts h
  obtain ⟨h1, h2, h3, h4, h5, h6, h7⟩ := hinv
  simp only [LRUCache.promote_to_mru, bind, Option.bind_eq_some,
    Option.some_inj] at h
  obtain ⟨ce, hce, s1, hs1, s2, hs2, s3, hs3, c1, hc1, hc'⟩ := h
  obtain ⟨ce', hce', hcep, hcen⟩ := cellOk_read (h6 i hi)
  rw [hce] at hce'
  obtain rfl : ce = ce' := Option.some_inj.mp hce'.symm |>.symm
  have hpos : 0 < c.size := Nat.lt_of_le_of_lt (Nat.zero_le i) hi
  obtain ⟨t, ht, htn⟩ := tail_some_of_pos h7 hpos
  have hall1 : ∀ j, j < c.size → cellOk s1 c.size j :=
    cellOk_sWrite_all hs1 ⟨by rw [ht]; exact htn, trivial⟩
      fun j hj _ => h6 j hj
  have hall2 := fix_prev_cellOk hs2 hcep hcen hall1
  have hall3 := fix_nxt_cellOk hs3 hcep hcen hall2
  have hall4 := fix_tail_cellOk hc1 (by rw [ht]; exact htn) hi hall3
  have htail := (fix_tail_facts hc1).2.2.2.2.2
  subst hc'
  refine ⟨?_, ?_, ?_, ?_, ?_, ?_, ?_⟩
  · rw [pf.2.2.1, pf.1]; exact h1
  · rw [pf.1]; exact h2
  · rw [pf.1]; exact h3
  · rw [pf.1, pf.2.2.1]; exact h4
  · rw [pf.2.2.1, pf.2.2.2.1]; exact h5
  · show ∀ j, j < c1.size → cellOk c1.slab c1.size j
    rw [show c1.size = c.size from pf.2.2.1]
    exact hall4
  · show tailOk _
    unfold tailOk
    rcases htail with h' | h'
    · rw [show ({ c1 with head := if some i = c.head then ce.nxt else c.head }
        : LRUCache κ α).tail = c1.tail from rfl, h']
      rw [show ({ c1 with head := if some i = c.head then ce.nxt else c.head }
        : LRUCache κ α).size = c1.size from rfl, pf.2.2.1]
      exact hi
    · rw [show ({ c1 with head := if some i = c.head then ce.nxt else c.head }
        : LRUCache κ α).tail = c1.tail from rfl, h', ht]
      rw [show ({ c1 with head := if some i = c.head then ce.nxt else c.head }
        : LRUCache κ α).size = c1.size from rfl, pf.2.2.1]
      exact htn

end Slab

namespace Slab

variable {κ α : Type} [DecidableEq κ]

/-- A successful slab `get` preserves the invariant, the key map and all
stored values, and returns the stored value (or `None` on a miss). -/
theorem sget_facts {c : LRUCache κ α} (hinv : SInv c) {k : κ} {r : Option α}
    {c' : LRUCache κ α} (h : c.get k = some (r, c')) :
    SInv c' ∧ (∀ k', storedVal c' k' = storedVal c k')
      ∧ c'.key_to_index = c.key_to_index
      ∧ r = (storedVal c k).getD none := by
  unfold LRUCache.get at h
  cases hk : dictLookup c.key_to_index k with
  | none =>
      rw [hk] at h
      obtain ⟨rfl, rfl⟩ : r = none ∧ c' = c := by
        have := Option.some_inj.mp h
        exact ⟨(congrArg Prod.fst this).symm, (congrArg Prod.snd this).symm⟩
      exact ⟨hinv, fun _ => rfl, rfl, by simp [storedVal, hk]⟩
  | some i =>
      rw [hk] at h
      simp only [bind, Option.bind_eq_some, Option.some_inj] at h
      obtain ⟨c1, hp, e, he, heq⟩ := h
      have hi : i < c.size := hinv.2.2.2.1 (k, i) (mem_of_dictLookup hk)
      have pf := promote_facts hp
      have hinv1 : SInv c1 := promote_SInv hinv hi hp
      have hre : r = e.value := (congrArg Prod.fst heq).symm
      have hce : c' = c1 := (congrArg Prod.snd heq).symm
      subst hre
      subst hce
      have hval : valAt c'.slab i = valAt c.slab i := pf.2.2.2.2.1 i
      have hsv : storedVal c k = some e.value := by
        unfold storedVal
        rw [hk]
        simp only [Option.some_bind]
        rw [← hval]
        unfold valAt
        rw [he]
        rfl
      refine ⟨hinv1, ?_, pf.1, by rw [hsv]; rfl⟩
      intro k'
      unfold storedVal
      rw [pf.1]
      cases hk' : dictLookup c.key_to_index k' with
      | none => rfl
      | some j => simp only [Option.some_bind]; exact pf.2.2.2.2.1 j

/-- On a key it holds, a slab `get` succeeds and returns the stored
value. -/
theorem sget_hit {c : LRUCache κ α} (hinv : SInv c) {k : κ} {v : Option α}
    (hs : storedVal c k = some v) : ∃ c', c.get k = some (v, c') := by
  unfold storedVal at hs
  cases hk : dictLookup c.key_to_index k with
  | none => rw [hk] at hs; cases hs
  | some i =>
      rw [hk] at hs
      simp only [Option.some_bind] at hs
      have hi : i < c.size := hinv.2.2.2.1 (k, i) (mem_of_dictLookup hk)
      obtain ⟨c1, hp⟩ := promote_total hinv hi
      have pf := promote_facts hp
      have hval : valAt c1.slab i = some v := by rw [pf.2.2.2.2.1 i]; exact hs
      obtain ⟨e, he, hev⟩ := Option.map_eq_some'.mp hval
      refine ⟨c1, ?_⟩
      unfold LRUCache.get
      rw [hk]
      simp only [bind, hp, Option.some_bind, he, hev]

/-- A successful slab `put` preserves the invariant, stores the new value
for its key and leaves every other stored value unchanged. -/
theorem sput_facts {c : LRUCache κ α} (hinv : SInv c) {k : κ} {v : Option α}
    {c' : LRUCache κ α} (h : c.put k v = some c') :
    SInv c' ∧ storedVal c' k = some v
      ∧ (∀ k', k' ≠ k → storedVal c' k' = storedVal c k') := by
  obtain ⟨h1, h2, h3, h4, h5, h6, h7⟩ := hinv
  unfold LRUCache.put at h
  cases hk : dictLookup c.key_to_index k with
  | some i =>
      simp only [hk] at h
      simp only [bind, Option.bind_eq_some, Option.some_inj] at h
      obtain ⟨c1, hp, s2, hw, hc'⟩ := h
      have hi : i < c.size := h4 (k, i) (mem_of_dictLookup hk)
      have hpos : 0 < c.size := Nat.lt_of_le_of_lt (Nat.zero_le i) hi
      obtain ⟨t, ht, htn⟩ := tail_some_of_pos h7 hpos
      have pf := promote_facts hp
      have hinv1 : SInv c1 := promote_SInv ⟨h1, h2, h3, h4, h5, h6, h7⟩ hi hp
      obtain ⟨g1, g2, g3, g4, g5, g6, g7⟩ := hinv1
      subst hc'
      refine ⟨⟨g1, g2, g3, g4, ?_, ?_, g7⟩, ?_, ?_⟩
      · rw [show ({ c1 with slab := s2 } : LRUCache κ α).slab.length =
          s2.length from rfl, sWrite_length hw]
        exact g5
      · show ∀ j, j < c1.size → cellOk s2 c1.size j
        refine cellOk_sWrite_all hw ⟨?_, trivial⟩ fun j hj _ => g6 j hj
        rw [ht]
        show t < c1.size
        rw [pf.2.2.1]
        exact htn
      · unfold storedVal
        show (dictLookup c1.key_to_index k).bind _ = some v
        rw [pf.1, hk]
        simp only [Option.some_bind]
        unfold valAt
        rw [sRead_sWrite_self hw]
        rfl
      · intro k' hk'
        unfold storedVal
        show (dictLookup c1.key_to_index k').bind _ =
          (dictLookup c.key_to_index k').bind _
        rw [pf.1]
        cases hk2 : dictLookup c.key_to_index k' with
        | none => rfl
        | some j =>
            simp only [Option.some_bind]
            have hji : j ≠ i := dictLookup_snd_ne h3 hk' hk2 hk
            show valAt s2 j = valAt c.slab j
            unfold valAt
            rw [sRead_sWrite_ne hw hji]
            exact pf.2.2.2.2.1 j
  | none =>
      simp only [hk] at h
      by_cases hcap : (c.size : Int) = c.capacity
      · rw [if_pos hcap] at h
        exfalso
        simp only [bind, Option.bind_eq_some] at h
        obtain ⟨index, _, ce, _, nI, _, nh, _, s1, _, s2', _, hfin⟩ := h
        cases hfin
      · rw [if_neg hcap] at h
        simp only [bind, Option.bind_eq_some, Option.some_inj] at h
        obtain ⟨s1, hs1, s2, hs2, hc'⟩ := h
        have hsl : c.size < c.slab.length := (sWrite_eq_some hs1).1
        have hknotin : k ∉ c.key_to_index.map Prod.fst :=
          dictLookup_eq_none_iff.mp hk
        have hins := dictInsert_absent hk c.size
        have htl1 : OptLt c.tail (c.size + 1) := by
          unfold tailOk at h7
          cases hct : c.tail with
          | none => trivial
          | some t => rw [hct] at h7; exact Nat.lt_succ_of_lt h7
        have hall1 : ∀ j, j < c.size + 1 → cellOk s1 (c.size + 1) j := by
          refine cellOk_sWrite_all hs1 ⟨htl1, trivial⟩ ?_
          intro j hj hji
          have hjlt : j < c.size := by omega
          exact cellOk_mono (h6 j hjlt) (Nat.le_succ _)
        have hall2 : ∀ j, j < c.size + 1 → cellOk s2 (c.size + 1) j := by
          refine link_old_tail_cellOk hs2 ?_ (by omega) hall1
          exact OptLt_mono htl1 (le_refl _)
        subst hc'
        refine ⟨⟨?_, ?_, ?_, ?_, ?_, ?_, ?_⟩, ?_, ?_⟩
        · show c.size + 1 = (dictInsert c.key_to_index k c.size).length
          rw [hins]
          simp [h1]
        · show ((dictInsert c.key_to_index k c.size).map Prod.fst).Nodup
          rw [hins]
          simp only [List.map_append, List.map_cons, List.map_nil]
          rw [List.nodup_append]
          exact ⟨h2, List.nodup_singleton _,
            fun x hx hx' => by
              simp only [List.mem_singleton] at hx'
              subst hx'
              exact hknotin hx⟩
        · show ((dictInsert c.key_to_index k c.size).map Prod.snd).Nodup
          rw [hins]
          simp only [List.map_append, List.map_cons, List.map_nil]
          rw [List.nodup_append]
          refine ⟨h3, List.nodup_singleton _, fun x hx hx' => ?_⟩
          simp only [List.mem_singleton] at hx'
          subst hx'
          obtain ⟨p, hpmem, hpx⟩ := List.mem_map.mp hx
          exact absurd (hpx ▸ h4 p hpmem) (lt_irrefl _)
        · intro p hp
          rw [hins] at hp
          rcases List.mem_append.mp hp with h' | h'
          · exact Nat.lt_succ_of_lt (h4 p h')
          · simp only [List.mem_singleton] at h'
            subst h'
            exact Nat.lt_succ_self _
        · show c.size + 1 ≤ s2.length
          rw [(link_old_tail_facts hs2).2, sWrite_length hs1]
          omega
        · exact hall2
        · show tailOk _
          unfold tailOk
          exact Nat.lt_succ_self _
        · unfold storedVal
          show (dictLookup (dictInsert c.key_to_index k c.size) k).bind _ =
            some v
          rw [dictLookup_insert_self]
          simp only [Option.some_bind]
          show valAt s2 c.size = some v
          rw [(link_old_tail_facts hs2).1]
          unfold valAt
          rw [sRead_sWrite_self hs1]
          rfl
        · intro k' hk'
          unfold storedVal
          show (dictLookup (dictInsert c.key_to_index k c.size) k').bind _ =
            (dictLookup c.key_to_index k').bind _
          rw [dictLookup_insert_ne _ _ hk']
          cases hk2 : dictLookup c.key_to_index k' with
          | none => rfl
          | some j =>
              simp only [Option.some_bind]
              have hjlt : j < c.size := h4 (k', j) (mem_of_dictLookup hk2)
              show valAt s2 j = valAt c.slab j
              rw [(link_old_tail_facts hs2).1]
              unfold valAt
              rw [sRead_sWrite_ne hs1 (Nat.ne_of_lt hjlt)]

end Slab

namespace Slab

variable {κ α : Type} [DecidableEq κ]

theorem SInv_init (cap : Int) : SInv (LRUCache.init κ α cap) := by
  refine ⟨rfl, List.nodup_nil, List.nodup_nil, ?_, ?_, ?_, ?_⟩
  · intro p hp
    exact absurd hp (List.not_mem_nil p)
  · exact Nat.zero_le _
  · intro i hi
    exact absurd hi (Nat.not_lt_zero i)
  · exact rfl

/-- Running operations from an invariant state keeps the invariant, and
the stored value of any key is the fold of the operations over its
previous stored value (i.e. the most recent `put`, if any). -/
theorem srun_facts {c st : LRUCache κ α} {ops : List (Op κ α)}
    (hinv : SInv c) (h : c.run ops = some st) (k : κ) :
    SInv st ∧ storedVal st k = ops.foldl
      (fun acc op =>
        match op with
        | .put k' v => if k' = k then some v else acc
        | .get _ => acc) (storedVal c k) := by
  induction ops generalizing c with
  | nil =>
      obtain rfl : c = st := Option.some_inj.mp h
      exact ⟨hinv, rfl⟩
  | cons op t ih =>
      unfold LRUCache.run at h
      simp only [bind, Option.bind_eq_some] at h
      obtain ⟨c1, hstep, hrun⟩ := h
      cases op with
      | put k0 v =>
          have hp : c.put k0 v = some c1 := hstep
          obtain ⟨hinv1, hval, hne⟩ := sput_facts hinv hp
          obtain ⟨ha, hb⟩ := ih hinv1 hrun
          refine ⟨ha, ?_⟩
          simp only [List.foldl_cons]
          rw [hb]
          congr 1
          by_cases hkk : k0 = k
          · subst hkk; rw [if_pos rfl]; exact hval
          · rw [if_neg hkk]; exact hne k fun h' => hkk h'.symm
      | get k0 =>
          have hg : (c.get k0).map Prod.snd = some c1 := hstep
          obtain ⟨⟨r, c1'⟩, hget, heq⟩ := Option.map_eq_some'.mp hg
          obtain rfl : c1' = c1 := heq
          obtain ⟨hinv1, hvals, _, _⟩ := sget_facts hinv hget
          obtain ⟨ha, hb⟩ := ih hinv1 hrun
          refine ⟨ha, ?_⟩
          simp only [List.foldl_cons]
          rw [hb, hvals k]

end Slab

/-! ### Node-cache invariant lemmas -/

section NodeCacheLemmas

variable {κ α : Type} [DecidableEq κ]

theorem nodup_mid_replace {β : Type} {xs ys : List β} {a b : β}
    (h : (xs ++ a :: ys).Nodup) (hx : b ∉ xs) (hy : b ∉ ys) :
    (xs ++ b :: ys).Nodup := by
  rw [List.nodup_append] at h ⊢
  obtain ⟨h1, h2, h3⟩ := h
  obtain ⟨ha, h2'⟩ := List.nodup_cons.mp h2
  refine ⟨h1, List.nodup_cons.mpr ⟨hy, h2'⟩, ?_⟩
  intro x hxm
  have hold := h3 hxm
  intro hc
  rcases List.mem_cons.mp hc with rfl | hc'
  · exact hx hxm
  · exact hold (List.mem_cons_of_mem _ hc')

/-- `Cache._remove_and_readd_node` on a chain address: succeeds, moves the
address's node to a fresh MRU node at the arena end, preserving every
other node's value. -/
theorem Cache.remove_readd_chain {c : Cache κ α} {l : List Nat} {a : Nat}
    (hc : ChainInv c.lru_deque l) (hm : a ∈ l) :
    ∃ d2, c.remove_and_readd_node a =
        some (c.lru_deque.nodes.length, d2)
      ∧ ChainInv d2 (l.erase a ++ [c.lru_deque.nodes.length])
      ∧ d2.nodes.length = c.lru_deque.nodes.length + 1
      ∧ (∀ j, valOf d2.nodes j =
          if j = c.lru_deque.nodes.length then valOf c.lru_deque.nodes a
          else valOf c.lru_deque.nodes j) := by
  obtain ⟨n, hna⟩ := fwdOk_get?_isSome hc.1.2.2.2.1 hm
  obtain ⟨d1, hrm, hc1, hl1, hv1⟩ := Deque.remove_node_chain hc hm
  obtain ⟨d2, hap, hc2, hl2, hv2⟩ := Deque.append_chain hc1 n.val
  rw [hl1] at hap hc2 hl2
  refine ⟨d2, ?_, hc2, hl2, ?_⟩
  · unfold Cache.remove_and_readd_node
    simp only [bind, hna, Option.some_bind, hrm, hap]
  · intro j
    rw [hv2 j, hl1]
    by_cases hj : j = c.lru_deque.nodes.length
    · rw [if_pos hj, if_pos hj]
      unfold valOf
      rw [hna]
      rfl
    · rw [if_neg hj, if_neg hj]
      exact hv1 j

/-- Every store entry's node address lies strictly inside the arena. -/
theorem NodeInv.addr_lt {c : Cache κ α} {l : List Nat} (h : NodeInv c l)
    {p : κ × CacheEntry α} (hp : p ∈ c.store) :
    p.2.lru_node < c.lru_deque.nodes.length :=
  fwdOk_mem_lt h.1.1.2.2.2.1 (h.2.2.2.2.1 p hp).1

/-- `Cache.get` on an absent key: miss result, state untouched. -/
theorem Cache.nget_miss {c : Cache κ α} {k : κ}
    (h : dictLookup c.store k = none) :
    c.get k = some (⟨false, none⟩, c) := by
  unfold Cache.get
  rw [h]

/-- Re-adding the node of a present key and overwriting its store entry
with a value `w` at the new MRU address preserves the cache invariant
(the shared core of `Cache.get` on a hit and of `Cache.put` on an
update). -/
theorem Cache.readd_insert_inv {c : Cache κ α} {l : List Nat}
    (hinv : NodeInv c l) {k : κ} {e : CacheEntry α}
    (hk : dictLookup c.store k = some e) (w : Option α) :
    ∃ d2, c.remove_and_readd_node e.lru_node =
        some (c.lru_deque.nodes.length, d2)
      ∧ NodeInv { c with
            store := dictInsert c.store k ⟨w, c.lru_deque.nodes.length⟩,
            lru_deque := d2 }
          (l.erase e.lru_node ++ [c.lru_deque.nodes.length]) := by
  obtain ⟨hci, hlen, hfnd, hsnd, h5, h6⟩ := hinv
  have hndl : l.Nodup := hci.1.2.2.1
  have hpm : (k, e) ∈ c.store := mem_of_dictLookup hk
  have hal : e.lru_node ∈ l := (h5 (k, e) hpm).1
  have hvk : valOf c.lru_deque.nodes e.lru_node = some k := (h5 (k, e) hpm).2
  have haddrlt : ∀ p ∈ c.store, p.2.lru_node < c.lru_deque.nodes.length :=
    fun p hp => fwdOk_mem_lt hci.1.2.2.2.1 (h5 p hp).1
  obtain ⟨d2, hrr, hc2, hl2, hv2⟩ := Cache.remove_readd_chain hci hal
  obtain ⟨pre, post, hdec, hins, hkpre⟩ :=
    dictInsert_present_decomp hk ⟨w, c.lru_deque.nodes.length⟩
  have hlpos : 0 < l.length := List.length_pos.mpr (List.ne_nil_of_mem hal)
  have hlerase : (l.erase e.lru_node).length = l.length - 1 :=
    List.length_erase_of_mem hal
  -- the address list of the store, decomposed around the entry of `k`
  have hold : c.store.map (fun p => p.2.lru_node)
      = pre.map (fun p => p.2.lru_node) ++ e.lru_node ::
          post.map (fun p => p.2.lru_node) := by
    rw [hdec]; simp
  have hnew : (dictInsert c.store k
        (⟨w, c.lru_deque.nodes.length⟩ : CacheEntry α)).map
          (fun p => p.2.lru_node)
      = pre.map (fun p => p.2.lru_node) ++ c.lru_deque.nodes.length ::
          post.map (fun p => p.2.lru_node) := by
    rw [hins]; simp
  have hNpre : c.lru_deque.nodes.length ∉ pre.map (fun p => p.2.lru_node) := by
    intro hmem
    obtain ⟨p, hp, hpe⟩ := List.mem_map.mp hmem
    have := haddrlt p (by rw [hdec]; exact List.mem_append_left _ hp)
    omega
  have hNpost : c.lru_deque.nodes.length ∉ post.map (fun p => p.2.lru_node) := by
    intro hmem
    obtain ⟨p, hp, hpe⟩ := List.mem_map.mp hmem
    have := haddrlt p
      (by rw [hdec]
          exact List.mem_append_right _ (List.mem_cons_of_mem _ hp))
    omega
  have hsnd' : (pre.map (fun p => p.2.lru_node) ++ e.lru_node ::
      post.map (fun p => p.2.lru_node)).Nodup := hold ▸ hsnd
  have hsndsplit := List.nodup_append.mp hsnd'
  -- a store entry of `pre`/`post` never carries the re-added address
  have hapre : ∀ p ∈ pre, p.2.lru_node ≠ e.lru_node := by
    intro p hp hc'
    exact (hsndsplit.2.2 (List.mem_map.mpr ⟨p, hp, rfl⟩))
      (hc' ▸ List.mem_cons_self _ _)
  have hapost : ∀ p ∈ post, p.2.lru_node ≠ e.lru_node := by
    intro p hp hc'
    exact (List.nodup_cons.mp hsndsplit.2.1).1
      (hc' ▸ List.mem_map.mpr ⟨p, hp, rfl⟩)
  refine ⟨d2, hrr, hc2, ?_, ?_, ?_, ?_, ?_⟩
  · -- chain length matches store length
    show _ = (dictInsert c.store k _).length
    have hsl : c.store.length = pre.length + post.length + 1 := by
      rw [hdec]; simp [List.length_append]; omega
    have hsl' : (dictInsert c.store k
        (⟨w, c.lru_deque.nodes.length⟩ : CacheEntry α)).length
        = pre.length + post.length + 1 := by
      rw [hins]; simp [List.length_append]; omega
    rw [hsl', List.length_append, hlerase, hlen, hsl]
    simp only [List.length_singleton]
    omega
  · -- keys stay duplicate-free (the key multiset is unchanged)
    show ((dictInsert c.store k _).map Prod.fst).Nodup
    have : (dictInsert c.store k
          (⟨w, c.lru_deque.nodes.length⟩ : CacheEntry α)).map Prod.fst
        = c.store.map Prod.fst := by
      rw [hins, hdec]; simp
    rw [this]
    exact hfnd
  · -- node addresses stay duplicate-free (fresh address replaces old)
    show ((dictInsert c.store k _).map (fun p => p.2.lru_node)).Nodup
    rw [hnew]
    exact nodup_mid_replace hsnd' hNpre hNpost
  · -- every store entry's node is on the new chain and holds its key
    intro p hp
    rw [hins] at hp
    rcases List.mem_append.mp hp with hp' | hp'
    · -- an entry of `pre`
      have hpd : p ∈ c.store := by
        rw [hdec]; exact List.mem_append_left _ hp'
      have hane : p.2.lru_node ≠ e.lru_node := hapre p hp'
      have hlt := haddrlt p hpd
      refine ⟨List.mem_append_left _
        ((List.Nodup.mem_erase_iff hndl).mpr ⟨hane, (h5 p hpd).1⟩), ?_⟩
      rw [hv2, if_neg (Nat.ne_of_lt hlt)]
      exact (h5 p hpd).2
    · rcases List.mem_cons.mp hp' with rfl | hp''
      · -- the overwritten entry of `k` itself
        refine ⟨List.mem_append_right _ (List.mem_singleton.mpr rfl), ?_⟩
        rw [hv2, if_pos rfl]
        exact hvk
      · -- an entry of `post`
        have hpd : p ∈ c.store := by
          rw [hdec]
          exact List.mem_append_right _ (List.mem_cons_of_mem _ hp'')
        have hane : p.2.lru_node ≠ e.lru_node := hapost p hp''
        have hlt := haddrlt p hpd
        refine ⟨List.mem_append_left _
          ((List.Nodup.mem_erase_iff hndl).mpr ⟨hane, (h5 p hpd).1⟩), ?_⟩
        rw [hv2, if_neg (Nat.ne_of_lt hlt)]
        exact (h5 p hpd).2
  · -- every chain address is some store entry's node
    intro b hb
    rcases List.mem_append.mp hb with hb' | hb'
    · have hbne : b ≠ e.lru_node :=
        ((List.Nodup.mem_erase_iff hndl).mp hb').1
      have hbl : b ∈ l := ((List.Nodup.mem_erase_iff hndl).mp hb').2
      obtain ⟨k', e', hm', ha'⟩ := h6 b hbl
      have hm'' : (k', e') ∈ pre ++ post := by
        rw [hdec] at hm'
        rcases List.mem_append.mp hm' with h | h
        · exact List.mem_append_left _ h
        · rcases List.mem_cons.mp h with h' | h'
          · exfalso
            have : e' = e := (Prod.mk.injEq .. ▸ h').2
            exact hbne (by rw [← ha', this])
          · exact List.mem_append_right _ h'
      refine ⟨k', e', ?_, ha'⟩
      rw [hins]
      rcases List.mem_append.mp hm'' with h | h
      · exact List.mem_append_left _ h
      · exact List.mem_append_right _ (List.mem_cons_of_mem _ h)
    · refine ⟨k, ⟨w, c.lru_deque.nodes.length⟩, ?_, ?_⟩
      · rw [hins]
        exact List.mem_append_right _ (List.mem_cons_self _ _)
      · exact (List.mem_singleton.mp hb').symm

/-- `Cache.get` on a present key: found with the stored value, invariant
preserved, the key re-mapped to the fresh MRU node, others untouched. -/
theorem Cache.nget_hit {c : Cache κ α} {l : List Nat} (hinv : NodeInv c l)
    {k : κ} {e : CacheEntry α} (hk : dictLookup c.store k = some e) :
    ∃ c', c.get k = some (⟨true, e.value⟩, c')
      ∧ NodeInv c' (l.erase e.lru_node ++ [c.lru_deque.nodes.length])
      ∧ c'.capacity = c.capacity
      ∧ (∀ k', k' ≠ k → dictLookup c'.store k' = dictLookup c.store k')
      ∧ dictLookup c'.store k
          = some ⟨e.value, c.lru_deque.nodes.length⟩ := by
  obtain ⟨d2, hrr, hinv'⟩ := Cache.readd_insert_inv hinv hk e.value
  refine ⟨_, ?_, hinv', rfl, ?_, ?_⟩
  · unfold Cache.get
    rw [hk]
    simp only [bind, hrr, Option.some_bind]
  · intro k' hne
    exact dictLookup_insert_ne _ _ hne
  · exact dictLookup_insert_self _ _ _

/-- `Cache.put` on a present key (the update case): succeeds, invariant
preserved, the key now stores the new value at the fresh MRU node. -/
theorem Cache.nput_update {c : Cache κ α} {l : List Nat} (hinv : NodeInv c l)
    {k : κ} {e : CacheEntry α} (hk : dictLookup c.store k = some e)
    (v : Option α) :
    ∃ c', c.put k v = some c'
      ∧ NodeInv c' (l.erase e.lru_node ++ [c.lru_deque.nodes.length])
      ∧ c'.capacity = c.capacity
      ∧ (∀ k', k' ≠ k → dictLookup c'.store k' = dictLookup c.store k')
      ∧ dictLookup c'.store k = some ⟨v, c.lru_deque.nodes.length⟩ := by
  obtain ⟨d2, hrr, hinv'⟩ := Cache.readd_insert_inv hinv hk v
  refine ⟨_, ?_, hinv', rfl, ?_, ?_⟩
  · unfold Cache.put
    rw [hk]
    simp only [bind, hrr, Option.some_bind]
  · intro k' hne
    exact dictLookup_insert_ne _ _ hne
  · exact dictLookup_insert_self _ _ _

/-- Appending a fresh key's node and store entry preserves the cache
invariant (the insertion part of `Cache.put` before any eviction). -/
theorem Cache.insert_inv {c : Cache κ α} {l : List Nat} (hinv : NodeInv c l)
    {k : κ} (hk : dictLookup c.store k = none) (v : Option α) :
    ∃ d1, c.lru_deque.append k = some (c.lru_deque.nodes.length, d1)
      ∧ NodeInv { c with
            store := dictInsert c.store k ⟨v, c.lru_deque.nodes.length⟩,
            lru_deque := d1 } (l ++ [c.lru_deque.nodes.length]) := by
  obtain ⟨hci, hlen, hfnd, hsnd, h5, h6⟩ := hinv
  have haddrlt : ∀ p ∈ c.store, p.2.lru_node < c.lru_deque.nodes.length :=
    fun p hp => fwdOk_mem_lt hci.1.2.2.2.1 (h5 p hp).1
  have hknotin : k ∉ c.store.map Prod.fst := dictLookup_eq_none_iff.mp hk
  obtain ⟨d1, hap, hc1, hl1, hv1⟩ := Deque.append_chain hci k
  have hins : dictInsert c.store k
      (⟨v, c.lru_deque.nodes.length⟩ : CacheEntry α)
      = c.store ++ [(k, ⟨v, c.lru_deque.nodes.length⟩)] :=
    dictInsert_absent hk _
  refine ⟨d1, hap, hc1, ?_, ?_, ?_, ?_, ?_⟩
  · show _ = (dictInsert c.store k _).length
    rw [hins]
    simp only [List.length_append, List.length_singleton]
    omega
  · show ((dictInsert c.store k _).map Prod.fst).Nodup
    rw [hins, List.map_append]
    rw [List.nodup_append]
    refine ⟨hfnd, by simp, ?_⟩
    intro x hx
    simp only [List.map_cons, List.map_nil, List.mem_singleton]
    intro hc'
    exact hknotin (hc' ▸ hx)
  · show ((dictInsert c.store k _).map (fun p => p.2.lru_node)).Nodup
    rw [hins, List.map_append, List.nodup_append]
    refine ⟨hsnd, by simp, ?_⟩
    intro x hx
    obtain ⟨p, hp, hpe⟩ := List.mem_map.mp hx
    have := haddrlt p hp
    simp only [List.map_cons, List.map_nil, List.mem_singleton]
    omega
  · intro p hp
    rw [hins] at hp
    rcases List.mem_append.mp hp with hp' | hp'
    · have hlt := haddrlt p hp'
      refine ⟨List.mem_append_left _ (h5 p hp').1, ?_⟩
      rw [hv1, if_neg (Nat.ne_of_lt hlt)]
      exact (h5 p hp').2
    · obtain rfl := List.mem_singleton.mp hp'
      refine ⟨List.mem_append_right _ (List.mem_singleton.mpr rfl), ?_⟩
      rw [hv1, if_pos rfl]
  · intro b hb
    rcases List.mem_append.mp hb with hb' | hb'
    · obtain ⟨k', e', hm', ha'⟩ := h6 b hb'
      exact ⟨k', e', by rw [hins]; exact List.mem_append_left _ hm', ha'⟩
    · refine ⟨k, ⟨v, c.lru_deque.nodes.length⟩, ?_,
        (List.mem_singleton.mp hb').symm⟩
      rw [hins]
      exact List.mem_append_right _ (List.mem_singleton.mpr rfl)

theorem nodup_mid_drop {β : Type} {xs ys : List β} {a : β}
    (h : (xs ++ a :: ys).Nodup) : (xs ++ ys).Nodup := by
  rw [List.nodup_append] at h ⊢
  obtain ⟨h1, h2, h3⟩ := h
  exact ⟨h1, (List.nodup_cons.mp h2).2,
    fun x hx hc => h3 hx (List.mem_cons_of_mem _ hc)⟩

/-- The eviction tail of `Cache.put` on a well-formed nonempty state:
pops the LRU head and deletes exactly its key's entry; every key still
present keeps its entry. -/
theorem Cache.evict_inv {store1 : List (κ × CacheEntry α)} {cap : Int}
    {d1 : Deque κ} {h0 : Nat} {t : List Nat}
    (hinv : NodeInv (⟨store1, cap, d1⟩ : Cache κ α) (h0 :: t)) :
    ∃ c2, Cache.evict_lru store1 cap d1 = some c2
      ∧ NodeInv c2 t ∧ c2.capacity = cap
      ∧ (∀ k' e', dictLookup c2.store k' = some e' →
           dictLookup store1 k' = some e') := by
  obtain ⟨hci, hlen, hfnd, hsnd, h5, h6⟩ := hinv
  have hndc : (h0 :: t).Nodup := hci.1.2.2.1
  have h0nt : h0 ∉ t := (List.nodup_cons.mp hndc).1
  obtain ⟨d2, hpop, hc2, hnodes⟩ := Deque.pop_left_chain hci
  obtain ⟨kh, eh, hmh, hah⟩ := h6 h0 (List.mem_cons_self h0 t)
  have hv0 : valOf d1.nodes h0 = some kh := by
    have := (h5 (kh, eh) hmh).2
    rw [hah] at this
    exact this
  obtain ⟨hn, hget, hval⟩ := Option.map_eq_some'.mp hv0
  have hlk : dictLookup store1 kh = some eh := dictLookup_of_mem hmh hfnd
  obtain ⟨pre, post, hdec, hdel, hkpre⟩ := dictDelete_present_decomp hlk
  -- store entries of `pre`/`post` never carry the popped address
  have hold : store1.map (fun p => p.2.lru_node)
      = pre.map (fun p => p.2.lru_node) ++ h0 ::
          post.map (fun p => p.2.lru_node) := by
    rw [hdec]; simp [hah]
  have hsnd' : (pre.map (fun p => p.2.lru_node) ++ h0 ::
      post.map (fun p => p.2.lru_node)).Nodup := hold ▸ hsnd
  have hsndsplit := List.nodup_append.mp hsnd'
  have hapre : ∀ p ∈ pre, p.2.lru_node ≠ h0 := by
    intro p hp hc'
    exact (hsndsplit.2.2 (List.mem_map.mpr ⟨p, hp, rfl⟩))
      (hc' ▸ List.mem_cons_self _ _)
  have hapost : ∀ p ∈ post, p.2.lru_node ≠ h0 := by
    intro p hp hc'
    exact (List.nodup_cons.mp hsndsplit.2.1).1
      (hc' ▸ List.mem_map.mpr ⟨p, hp, rfl⟩)
  refine ⟨⟨dictDelete store1 kh, cap, d2⟩, ?_, ⟨hc2, ?_, ?_, ?_, ?_, ?_⟩,
    rfl, ?_⟩
  · unfold Cache.evict_lru
    rw [hpop]
    have hget' : d2.nodes.get? h0 = some hn := by rw [hnodes]; exact hget
    simp only [hget', hval]
  · show t.length = (dictDelete store1 kh).length
    rw [hdel]
    have h1 : store1.length = pre.length + post.length + 1 := by
      rw [hdec]; simp [List.length_append]; omega
    have h2 : (h0 :: t).length = store1.length := hlen
    simp only [List.length_cons] at h2
    simp only [List.length_append]
    omega
  · show ((dictDelete store1 kh).map Prod.fst).Nodup
    have hfold : store1.map Prod.fst
        = pre.map Prod.fst ++ kh :: post.map Prod.fst := by
      rw [hdec]; simp
    rw [hdel, List.map_append]
    exact nodup_mid_drop (hfold ▸ hfnd)
  · show ((dictDelete store1 kh).map (fun p => p.2.lru_node)).Nodup
    rw [hdel, List.map_append]
    exact nodup_mid_drop hsnd'
  · intro p hp
    rw [hdel] at hp
    have hps : p ∈ store1 := by
      rw [hdec]
      rcases List.mem_append.mp hp with h | h
      · exact List.mem_append_left _ h
      · exact List.mem_append_right _ (List.mem_cons_of_mem _ h)
    have hane : p.2.lru_node ≠ h0 := by
      rcases List.mem_append.mp hp with h | h
      · exact hapre p h
      · exact hapost p h
    have hpt : p.2.lru_node ∈ t := by
      rcases List.mem_cons.mp (h5 p hps).1 with h | h
      · exact absurd h hane
      · exact h
    refine ⟨hpt, ?_⟩
    rw [hnodes]
    exact (h5 p hps).2
  · intro b hb
    obtain ⟨k', e', hm', ha'⟩ := h6 b (List.mem_cons_of_mem _ hb)
    refine ⟨k', e', ?_, ha'⟩
    rw [hdel]
    rw [hdec] at hm'
    rcases List.mem_append.mp hm' with h | h
    · exact List.mem_append_left _ h
    · rcases List.mem_cons.mp h with h' | h'
      · exfalso
        have he' : e' = eh := (Prod.mk.injEq .. ▸ h').2
        rw [he', hah] at ha'
        exact h0nt (ha' ▸ hb)
      · exact List.mem_append_right _ h'
  · intro k' e' hl'
    by_cases hkk : k' = kh
    · subst hkk
      rw [show dictLookup (dictDelete store1 k') k' = none from
        dictLookup_delete_self hfnd] at hl'
      cases hl'
    · rw [dictLookup_delete_ne _ hkk] at hl'
      exact hl'

/-- `Cache.put` from a well-formed state: always succeeds, preserves
well-formedness and the capacity, stores the new value for its key
(unless the insertion itself was immediately evicted) and changes no
other key's value. -/
theorem Cache.nput_facts {c : Cache κ α} {l : List Nat} (hinv : NodeInv c l)
    (k : κ) (v : Option α) :
    ∃ c' l', c.put k v = some c' ∧ NodeInv c' l'
      ∧ c'.capacity = c.capacity
      ∧ (∀ k' e', dictLookup c'.store k' = some e' →
           (k' = k → e'.value = v)
           ∧ (k' ≠ k → (dictLookup c.store k').map CacheEntry.value
                = some e'.value)) := by
  cases hk : dictLookup c.store k with
  | some e =>
      obtain ⟨c', hput, hinv', hcap, hoth, hself⟩ :=
        Cache.nput_update hinv hk v
      refine ⟨c', _, hput, hinv', hcap, ?_⟩
      intro k' e' hl'
      constructor
      · intro he
        subst he
        rw [hself] at hl'
        rw [← Option.some_inj.mp hl']
      · intro hne
        rw [hoth k' hne] at hl'
        rw [hl']
        rfl
  | none =>
      obtain ⟨d1, hap, hinv1⟩ := Cache.insert_inv hinv hk v
      by_cases hcap : ((dictInsert c.store k
          (⟨v, c.lru_deque.nodes.length⟩ : CacheEntry α)).length : Int)
          > c.capacity
      · -- at capacity: the insertion is followed by an eviction
        obtain ⟨h0, t, hht⟩ :
            ∃ h0 t, l ++ [c.lru_deque.nodes.length] = h0 :: t := by
          cases l with
          | nil => exact ⟨_, _, rfl⟩
          | cons x xs => exact ⟨x, xs ++ _, rfl⟩
        rw [hht] at hinv1
        obtain ⟨c2, hev, hinv2, hcap2, hcons⟩ := Cache.evict_inv hinv1
        refine ⟨c2, t, ?_, hinv2, hcap2, ?_⟩
        · unfold Cache.put
          rw [hk]
          simp only [bind, hap, Option.some_bind]
          rw [if_pos hcap]
          exact hev
        · intro k' e' hl'
          have hl1 := hcons k' e' hl'
          constructor
          · intro he
            subst he
            rw [dictLookup_insert_self] at hl1
            rw [← Option.some_inj.mp hl1]
          · intro hne
            rw [dictLookup_insert_ne _ _ hne] at hl1
            rw [hl1]
            rfl
      · -- below capacity: plain insertion
        refine ⟨{ c with
            store := dictInsert c.store k ⟨v, c.lru_deque.nodes.length⟩,
            lru_deque := d1 }, l ++ [c.lru_deque.nodes.length], ?_,
          hinv1, rfl, ?_⟩
        · unfold Cache.put
          rw [hk]
          simp only [bind, hap, Option.some_bind]
          rw [if_neg hcap]
        · intro k' e' hl'
          constructor
          · intro he
            subst he
            rw [dictLookup_insert_self] at hl'
            rw [← Option.some_inj.mp hl']
          · intro hne
            rw [dictLookup_insert_ne _ _ hne] at hl'
            rw [hl']
            rfl

/-- `Cache.get` from a well-formed state: always succeeds, preserves
well-formedness, the capacity and every key's stored value, and reports
found exactly for present keys, returning the stored value. -/
theorem Cache.nget_facts {c : Cache κ α} {l : List Nat} (hinv : NodeInv c l)
    (k : κ) :
    ∃ r c', c.get k = some (r, c')
      ∧ (∃ l', NodeInv c' l')
      ∧ c'.capacity = c.capacity
      ∧ (∀ k', (dictLookup c'.store k').map CacheEntry.value
            = (dictLookup c.store k').map CacheEntry.value)
      ∧ r = ⟨(dictLookup c.store k).isSome,
             (dictLookup c.store k).bind CacheEntry.value⟩ := by
  cases hk : dictLookup c.store k with
  | none =>
      exact ⟨⟨false, none⟩, c, Cache.nget_miss hk, ⟨l, hinv⟩, rfl,
        fun _ => rfl, rfl⟩
  | some e =>
      obtain ⟨c', hget, hinv', hcap, hoth, hself⟩ := Cache.nget_hit hinv hk
      refine ⟨_, _, hget, ⟨_, hinv'⟩, hcap, ?_, rfl⟩
      intro k'
      by_cases hkk : k' = k
      · subst hkk
        rw [hself, hk]
        rfl
      · rw [hoth k' hkk]

/-- A freshly constructed node-based cache is well formed (empty chain). -/
theorem wf_cache_init (cap : Int) : NodeInv (Cache.init κ α cap) [] := by
  refine ⟨⟨⟨rfl, rfl, List.nodup_nil, trivial, trivial, trivial⟩, ?_⟩,
    rfl, List.nodup_nil, List.nodup_nil, ?_, ?_⟩
  · intro n hn
    exact absurd hn (List.not_mem_nil n)
  · intro p hp
    exact absurd hp (List.not_mem_nil p)
  · intro b hb
    exact absurd hb (List.not_mem_nil b)

/-- Running operations from a well-formed node cache keeps it well
formed, and any key present at the end stores exactly the value of the
fold of the operations over any sound starting accumulator (i.e. its
most recent `put`). -/
theorem nrun_facts {c st : Cache κ α} {ops : List (Op κ α)}
    (hwf : WFCache c) (h : c.run ops = some st) (k : κ)
    (acc : Option (Option α))
    (hacc : ∀ e, dictLookup c.store k = some e → acc = some e.value) :
    WFCache st ∧ ∀ e, dictLookup st.store k = some e →
      ops.foldl
        (fun a op =>
          match op with
          | .put k' v => if k' = k then some v else a
          | .get _ => a) acc = some e.value := by
  induction ops generalizing c acc with
  | nil =>
      obtain rfl : c = st := Option.some_inj.mp h
      exact ⟨hwf, fun e he => by rw [List.foldl_nil]; exact hacc e he⟩
  | cons op t ih =>
      unfold Cache.run at h
      simp only [bind, Option.bind_eq_some] at h
      obtain ⟨c1, hstep, hrun⟩ := h
      obtain ⟨l, hinv⟩ := hwf
      cases op with
      | put k0 v =>
          obtain ⟨c1', l1, hput, hinv1, _, hvals⟩ :=
            Cache.nput_facts hinv k0 v
          obtain rfl : c1' = c1 := by
            have hp : c.put k0 v = some c1 := hstep
            rw [hp] at hput
            exact (Option.some_inj.mp hput).symm
          simp only [List.foldl_cons]
          refine ih ⟨l1, hinv1⟩ hrun _ ?_
          intro e he
          obtain ⟨h1, h2⟩ := hvals k e he
          by_cases hkk : k0 = k
          · rw [if_pos hkk, h1 hkk.symm]
          · rw [if_neg hkk]
            have := h2 fun h' => hkk h'.symm
            obtain ⟨e0, he0, hev⟩ := Option.map_eq_some'.mp this
            rw [hacc e0 he0, hev]
      | get k0 =>
          obtain ⟨r, c1', hget, hwf1, _, hvals, _⟩ :=
            Cache.nget_facts hinv k0
          obtain rfl : c1' = c1 := by
            have hg : (c.get k0).map Prod.snd = some c1 := hstep
            rw [hget] at hg
            exact Option.some_inj.mp hg
          simp only [List.foldl_cons]
          refine ih hwf1 hrun _ ?_
          intro e he
          have := hvals k
          rw [he] at this
          obtain ⟨e0, he0, hev⟩ := Option.map_eq_some'.mp this.symm
          rw [hacc e0 he0, hev]

end NodeCacheLemmas

/-- C3: from well-formed tiers, `MultiLevelCache.get_or_fetch` follows
exactly the documented policy.  (a) On an L1 hit it returns found with
the L1 value, the L2 component is returned untouched (no write-back) and
`fetch` is not invoked.  (b) On an L1 miss and L2 hit, the L1 state is
unchanged by its missed `get`, the L2 value is inserted into L1 via
`put`, and the value is returned as found with `fetch` not invoked.
(c) On a double miss with `fetch` reporting not-found, not-found is
returned, the whole state is unchanged and `fetch` ran exactly once.
(d) On a double miss with `fetch` reporting found, the value is inserted
into L2 (first) and into L1 (second), both via `put` on the miss-time
states, and returned as found with `fetch` run exactly once. -/
theorem c3_get_or_fetch_policy {κ α : Type} [DecidableEq κ]
    (m : MultiLevelCache κ α) (h1 : WFCache m.l1) (h2 : WFCache m.l2)
    (k : κ) (f : κ → Bool × Option α) :
    (∀ e1, dictLookup m.l1.store k = some e1 →
       ∃ l1', (m.l1.get k).map Prod.snd = some l1'
         ∧ m.get_or_fetch k f = some (⟨true, e1.value⟩, ⟨l1', m.l2⟩, 0))
    ∧ (dictLookup m.l1.store k = none →
        ∀ e2, dictLookup m.l2.store k = some e2 →
          ∃ l2' l1'', (m.l2.get k).map Prod.snd = some l2'
            ∧ m.l1.put k e2.value = some l1''
            ∧ m.get_or_fetch k f = some (⟨true, e2.value⟩, ⟨l1'', l2'⟩, 0))
    ∧ (dictLookup m.l1.store k = none →
        dictLookup m.l2.store k = none →
        ∀ d, f k = (false, d) →
          m.get_or_fetch k f = some (⟨false, none⟩, m, 1))
    ∧ (dictLookup m.l1.store k = none →
        dictLookup m.l2.store k = none →
        ∀ d, f k = (true, d) →
          ∃ l2'' l1'', m.l2.put k d = some l2''
            ∧ m.l1.put k d = some l1''
            ∧ m.get_or_fetch k f = some (⟨true, d⟩, ⟨l1'', l2''⟩, 1)) := by
  obtain ⟨l1, hinv1⟩ := h1
  obtain ⟨l2, hinv2⟩ := h2
  refine ⟨?_, ?_, ?_, ?_⟩
  · intro e1 hk1
    obtain ⟨c1', hget, _, _, _, _⟩ := Cache.nget_hit hinv1 hk1
    refine ⟨c1', by rw [hget]; rfl, ?_⟩
    unfold MultiLevelCache.get_or_fetch
    rw [hget]
    rfl
  · intro hm1 e2 hk2
    have hg1 : m.l1.get k = some (⟨false, none⟩, m.l1) := Cache.nget_miss hm1
    obtain ⟨l2', hg2, _, _, _, _⟩ := Cache.nget_hit hinv2 hk2
    obtain ⟨l1'', _, hput, _, _, _⟩ := Cache.nput_facts hinv1 k e2.value
    refine ⟨l2', l1'', by rw [hg2]; rfl, hput, ?_⟩
    simp [MultiLevelCache.get_or_fetch, bind, hg1, hg2, hput]
  · intro hm1 hm2 d hf
    have hg1 : m.l1.get k = some (⟨false, none⟩, m.l1) := Cache.nget_miss hm1
    have hg2 : m.l2.get k = some (⟨false, none⟩, m.l2) := Cache.nget_miss hm2
    simp [MultiLevelCache.get_or_fetch, bind, hg1, hg2, hf]
  · intro hm1 hm2 d hf
    have hg1 : m.l1.get k = some (⟨false, none⟩, m.l1) := Cache.nget_miss hm1
    have hg2 : m.l2.get k = some (⟨false, none⟩, m.l2) := Cache.nget_miss hm2
    obtain ⟨l2'', _, hput2, _, _, _⟩ := Cache.nput_facts hinv2 k d
    obtain ⟨l1'', _, hput1, _, _, _⟩ := Cache.nput_facts hinv1 k d
    refine ⟨l2'', l1'', hput2, hput1, ?_⟩
    simp [MultiLevelCache.get_or_fetch, bind, hg1, hg2, hf, hput1, hput2]

theorem c3_witness :
    ∃ l2x l1x,
      Cache.put (Cache.init Nat Nat 2) 5 (some 7) = some l2x
      ∧ Cache.put (Cache.init Nat Nat 2) 5 (some 7) = some l1x
      ∧ (MultiLevelCache.init Nat Nat 2 2).get_or_fetch 5
            (fun _ => (true, some 7))
          = some (⟨true, some 7⟩, ⟨l1x, l2x⟩, 1) :=
  (c3_get_or_fetch_policy (MultiLevelCache.init Nat Nat 2 2)
    ⟨[], wf_cache_init 2⟩ ⟨[], wf_cache_init 2⟩ 5
    (fun _ => (true, some 7))).2.2.2 rfl rfl (some 7) rfl

/-- C4: after any completing execution, in the node-based cache every key
still present (i.e. not evicted) stores exactly the value most recently
`put` for it and a `get` on it reports found with that value; in the
slab-based variant every key whose most recent `put` value is `v` holds
`v` and a `get` on it returns `v` (a completing slab execution never
evicts, as eviction always raises). -/
theorem c4_roundtrip_last_put {κ α : Type} [DecidableEq κ]
    (cap : Int) (ops : List (Op κ α)) (k : κ) :
    (∀ nst : Cache κ α, Cache.exec κ α cap ops = some nst →
       ∀ e, dictLookup nst.store k = some e →
         lastPut ops k = some e.value
           ∧ ∃ c', nst.get k = some (⟨true, e.value⟩, c'))
    ∧ (∀ sst : Slab.LRUCache κ α, Slab.LRUCache.exec κ α cap ops = some sst →
        ∀ v, lastPut ops k = some v →
          Slab.storedVal sst k = some v
            ∧ ∃ st', sst.get k = some (v, st')) := by
  constructor
  · intro nst h e he
    obtain ⟨hwf, hval⟩ :=
      nrun_facts ⟨[], wf_cache_init cap⟩ h k none
        (fun e0 he0 => Option.noConfusion he0)
    have hfold := hval e he
    constructor
    · exact hfold
    · obtain ⟨lf, hinvf⟩ := hwf
      obtain ⟨c', hget, _, _, _, _⟩ := Cache.nget_hit hinvf he
      exact ⟨c', hget⟩
  · intro sst h v hv
    obtain ⟨hinv, hval⟩ := Slab.srun_facts (Slab.SInv_init cap) h k
    have hsv : Slab.storedVal sst k = some v := by
      rw [hval]
      exact hv
    exact ⟨hsv, Slab.sget_hit hinv hsv⟩

theorem c4_witness :
    (lastPut [Op.put 1 (some 10), Op.put 2 (some 20), Op.put 1 (some 11)] 1
        = some (some 11)
      ∧ ∃ c', (⟨[(1, ⟨some 11, 2⟩), (2, ⟨some 20, 1⟩)], 2,
          ⟨[⟨1, none, some 1⟩, ⟨2, none, some 2⟩, ⟨1, some 1, none⟩],
            some 1, some 2⟩⟩ : Cache Nat Nat).get 1
          = some (⟨true, some 11⟩, c'))
    ∧ (Slab.storedVal (⟨[some ⟨some 11, some 1, none⟩,
            some ⟨some 20, none, some 0⟩], 2, [(1, 0), (2, 1)],
            some 1, some 0, 2⟩ : Slab.LRUCache Nat Nat) 1 = some (some 11)
      ∧ ∃ st', (⟨[some ⟨some 11, some 1, none⟩,
            some ⟨some 20, none, some 0⟩], 2, [(1, 0), (2, 1)],
            some 1, some 0, 2⟩ : Slab.LRUCache Nat Nat).get 1
          = some (some 11, st')) :=
  ⟨(@c4_roundtrip_last_put Nat Nat _ 2
      [Op.put 1 (some 10), Op.put 2 (some 20), Op.put 1 (some 11)] 1).1
      ⟨[(1, ⟨some 11, 2⟩), (2, ⟨some 20, 1⟩)], 2,
        ⟨[⟨1, none, some 1⟩, ⟨2, none, some 2⟩, ⟨1, some 1, none⟩],
          some 1, some 2⟩⟩ rfl ⟨some 11, 2⟩ rfl,
   (@c4_roundtrip_last_put Nat Nat _ 2
      [Op.put 1 (some 10), Op.put 2 (some 20), Op.put 1 (some 11)] 1).2
      ⟨[some ⟨some 11, some 1, none⟩, some ⟨some 20, none, some 0⟩], 2,
        [(1, 0), (2, 1)], some 1, some 0, 2⟩ rfl (some 11) rfl⟩
